import Mathlib

/-!
# Verification of the FlightDataAnalyzer interval algebra and phase derivations

Shallow embedding of `analysis_engine/library.py` (slice algebra, signal
conditioning, threshold-crossing search) and `analysis_engine/flight_phase.py`
(`Airborne.derive`, `scan_ils`) from the FlightDataAnalyzer repository.

The source is Python 2 with numpy masked arrays.  The embedding follows the
source line by line:

* a Python slice is `PySlice` — `start`/`stop`/`step`, each possibly `None`
  (integer bounds; the ephemeral fractional-index slices that `scan_ils`
  builds are `QSlice` with rational bounds);
* a numpy masked array of floats is `MArr := List (Option ℚ)`, `none` being a
  masked sample ("unknown/invalid") — the algorithms under verification never
  read the raw data stored under a mask;
* Python 2 value comparisons, where `None` sorts below every number, are
  `py2lt`/`py2min`/`py2max`; Python truthiness of `x or d` is `pyOrI`/`pyOrQ`;
* fallible code (Python exceptions) returns `Except String`.
-/

deriving instance DecidableEq for Except

namespace FDA

/-! ## Python 2 semantics helpers -/

/-- Python 2 `<` on optional numbers: `None` compares below every number. -/
def py2lt : Option Int → Option Int → Bool
  | none, none => false
  | none, some _ => true
  | some _, none => false
  | some a, some b => decide (a < b)

/-- Python 2 `min(a, b)`: returns `b` iff `b < a` (first argument on ties). -/
def py2min (a b : Option Int) : Option Int := if py2lt b a then b else a

/-- Python 2 `max(a, b)`: returns `b` iff `a < b` (first argument on ties). -/
def py2max (a b : Option Int) : Option Int := if py2lt a b then b else a

/-- Python 2 `min` of a list (the source only applies it to nonempty lists;
we return `none` on `[]`, where Python would raise). -/
def py2minList : List (Option Int) → Option Int
  | [] => none
  | h :: t => t.foldl py2min h

/-- Python 2 `max` of a list (the source only applies it to nonempty lists). -/
def py2maxList : List (Option Int) → Option Int
  | [] => none
  | h :: t => t.foldl py2max h

/-- Python `x or d` for an optional integer: `None` and `0` are falsy. -/
def pyOrI (v : Option Int) (d : Int) : Int :=
  match v with
  | none => d
  | some x => if x = 0 then d else x

/-- Python `x or d` for an optional float: `None` and `0.0` are falsy. -/
def pyOrQ (v : Option Rat) (d : Rat) : Rat :=
  match v with
  | none => d
  | some x => if x = 0 then d else x

/-- Python 2 `round`: round half away from zero, as an integer. -/
def pyRound (q : Rat) : Int :=
  if 0 ≤ q then (q + 1/2).floor else -((-q + 1/2).floor)

/-- Python `int()` of a float: truncation toward zero. -/
def pyInt (q : Rat) : Int :=
  if 0 ≤ q then q.floor else q.ceil

/-! ## Slices and numpy basic indexing -/

/-- A Python `slice` object with integer (or `None`) bounds, as stored in the
library's slice lists. -/
structure PySlice where
  start : Option Int
  stop : Option Int
  step : Option Int
  deriving DecidableEq, Repr

/-- `slice(a, b)` with concrete integer bounds and no step. -/
def intSlice (a b : Int) : PySlice := ⟨some a, some b, none⟩

/-- A Python `slice` with fractional bounds, as built transiently by
`scan_ils` from interpolated indices and consumed by `index_at_value`. -/
structure QSlice where
  start : Option Rat
  stop : Option Rat
  step : Option Int
  deriving DecidableEq, Repr

/-- CPython `PySlice_GetIndicesEx`: the sequence of indices a slice with a
nonzero step selects from a sequence of length `n` (with `None` defaults,
negative-index wrapping and clamping). -/
def sliceElems (start stop step : Option Int) (n : Nat) : List Int :=
  let k := step.getD 1
  let lower : Int := if k < 0 then -1 else 0
  let upper : Int := if k < 0 then (n : Int) - 1 else (n : Int)
  let st : Int :=
    match start with
    | none => if k < 0 then upper else lower
    | some v => if v < 0 then max (v + n) lower else min v upper
  let sp : Int :=
    match stop with
    | none => if k < 0 then lower else upper
    | some v => if v < 0 then max (v + n) lower else min v upper
  let len : Int :=
    if 0 < k then (if st < sp then (sp - st - 1) / k + 1 else 0)
    else (if sp < st then (st - sp - 1) / (-k) + 1 else 0)
  (List.range len.toNat).map fun j : Nat => st + (j : Int) * k

/-- numpy masked array of floats: `none` is a masked (invalid) sample. -/
abbrev MArr := List (Option Rat)

/-- `np.ma.count`: number of unmasked samples. -/
def maCount (a : MArr) : Nat := (a.filter Option.isSome).length

/-- Element lookup at an integer index (only used at indices that
`sliceElems` has already wrapped and clamped into range). -/
def maGet (a : MArr) (i : Int) : Option Rat :=
  if i < 0 then none else a.getD i.toNat none

/-- `array[start:stop:step]` on a masked array. -/
def pyGetSlice (a : MArr) (start stop step : Option Int) : MArr :=
  (sliceElems start stop step a.length).map (maGet a)

/-- Slicing with fractional bounds, as this era of numpy accepted (bounds are
truncated toward zero, like `int()`). -/
def pyGetSliceQ (a : MArr) (sl : QSlice) : MArr :=
  pyGetSlice a (sl.start.map pyInt) (sl.stop.map pyInt) sl.step

/-! ## Maximal runs (`np.ma.clump_masked` / `np.ma.clump_unmasked`) -/

/-- One-pass maximal-run scanner: `cur` is the start of the `true` run
currently open (if any), `i` the next position, `fuel` the number of
positions still to scan; each finished run is a half-open pair of absolute
positions. -/
def clumpsAux (p : Nat → Bool) : Nat → Option Nat → Nat → List (Nat × Nat)
  | i, cur, 0 =>
    match cur with
    | some s => [(s, i)]
    | none => []
  | i, cur, fuel + 1 =>
    if p i then clumpsAux p (i + 1) (some (cur.getD i)) fuel
    else
      match cur with
      | some s => (s, i) :: clumpsAux p (i + 1) none fuel
      | none => clumpsAux p (i + 1) none fuel

/-- Maximal runs of `true` values of `p` inside `[s, e)`. -/
def clumps (p : Nat → Bool) (s e : Nat) : List (Nat × Nat) :=
  clumpsAux p s none (e - s)

/-- Maximal runs of `true` in a boolean vector, as slices (this is how the
numpy `clump_*` functions report runs: relative to the sliced array). -/
def npClumpTrue (l : List Bool) : List PySlice :=
  (clumps (fun i => l.getD i false) 0 l.length).map fun r =>
    intSlice (r.1 : Int) (r.2 : Int)

/-- `np.ma.clump_unmasked`: maximal runs of valid samples. -/
def npClumpUnmasked (a : MArr) : List PySlice :=
  npClumpTrue (a.map Option.isSome)

/-- `np.ma.clump_masked`: maximal runs of masked samples. -/
def npClumpMasked (a : MArr) : List PySlice :=
  npClumpTrue (a.map Option.isNone)

/-! ## `shift_slice` / `shift_slices` (library.py:4953,4977) -/

/-- `shift_slice`: translate a slice by an offset, dropping slices whose
shifted width collapses below one sample; a falsy (zero) offset returns the
slice unchanged. -/
def shift_slice (s : PySlice) (offset : Int) : Option PySlice :=
  if offset = 0 then some s
  else
    let start := s.start.map (· + offset)
    let stop := s.stop.map (· + offset)
    match start, stop with
    | some a, some b =>
      if 1 ≤ b - a then some ⟨some a, some b, s.step⟩ else none
    | _, _ => some ⟨start, stop, s.step⟩

/-- `shift_slices`: shift a whole list, keeping only surviving slices; a
falsy offset returns the list unchanged. -/
def shift_slices (l : List PySlice) (offset : Int) : List PySlice :=
  if offset = 0 then l else l.filterMap (fun s => shift_slice s offset)

/-! ## Containment and overlap tests (library.py:3019,3074,3111) -/

/-- `is_index_within_slice` (library.py:3019). -/
def is_index_within_slice (index : Int) (s : PySlice) : Bool :=
  match s.start, s.stop with
  | none, none => true
  | none, some b => index < b
  | some a, none => a ≤ index
  | some a, some b => a ≤ index ∧ index < b

/-- `slices_overlap` (library.py:3111): more than a boundary point in
common; raises on a step below one. -/
def slices_overlap (first_slice second_slice : PySlice) :
    Except String Bool :=
  let negStep : PySlice → Bool := fun s =>
    match s.step with
    | some k => decide (k < 1)
    | none => false
  if negStep first_slice || negStep second_slice then
    .error "Negative step not supported"
  else
    .ok ((py2lt first_slice.start second_slice.stop ||
          decide (second_slice.stop = none)) &&
         (py2lt second_slice.start first_slice.stop ||
          decide (first_slice.stop = none)))

/-- The inner `entire_slice_within_slice` of `is_slice_within_slice`
(library.py:3085), the `within_use='slice'` mode. -/
def entire_slice_within_slice (inner outer : PySlice) : Bool :=
  if outer.start = none ∧ outer.stop = none then true
  else if inner.start = none ∧ outer.start ≠ none then false
  else if inner.stop = none ∧ outer.stop ≠ none then false
  else if inner.start = none ∧ outer.start = none then
    py2lt inner.stop outer.stop
  else if outer.stop = none ∧ outer.stop = none then
    !py2lt inner.start outer.start
  else
    (!py2lt inner.start outer.start ∧ !py2lt outer.stop inner.start) ∧
    (!py2lt inner.stop outer.start ∧ !py2lt outer.stop inner.stop)

/-- `is_slice_within_slice` (library.py:3074).  The `'any'` mode calls
`slices_overlap`, which can raise; an unknown mode falls off the end of the
if-chain and returns Python `None`, which is falsy — modelled as `false`. -/
def is_slice_within_slice (inner outer : PySlice) (within_use : String) :
    Except String Bool :=
  if within_use = "slice" then .ok (entire_slice_within_slice inner outer)
  else if within_use = "start" then
    match inner.start with
    | some a => .ok (is_index_within_slice a outer)
    | none => .error "TypeError: comparison with None index"
  else if within_use = "stop" then
    match inner.stop with
    | some b => .ok (is_index_within_slice b outer)
    | none => .error "TypeError: comparison with None index"
  else if within_use = "any" then slices_overlap inner outer
  else .ok false

/-! ## `slices_not` (library.py:3186) -/

/-- The rasterisation step shared by `slices_not` and `slices_or`:
`workspace[each_slice] = 1` over a zero vector of length `n` marks every
index selected by any slice of the list. -/
def npMark (slice_list : List PySlice) (n : Nat) (i : Nat) : Bool :=
  slice_list.any fun s =>
    (sliceElems s.start s.stop s.step n).contains (i : Int)

/-- `if begin_at is not None and begin_at < startpoint: startpoint =
begin_at` (library.py:3213). -/
def notBeginAt (begin_at startpoint : Option Int) : Option Int :=
  match begin_at with
  | some v => if py2lt (some v) startpoint then some v else startpoint
  | none => startpoint

/-- `if end_at is not None and end_at > endpoint: endpoint = end_at`
(library.py:3221). -/
def notEndAt (end_at endpoint : Option Int) : Option Int :=
  match end_at with
  | some v => if py2lt endpoint (some v) then some v else endpoint
  | none => endpoint

/-- The `startpoint` computation of `slices_not` (library.py:3206-3216):
minimum of all bounds (Python 2 `min`, where `None` is smallest), lowered to
`begin_at` if that is smaller, with a residual `None` replaced by 0. -/
def snStart (slice_list : List PySlice) (begin_at : Option Int) : Int :=
  let a := py2minList (slice_list.map (·.start))
  let b := py2minList (slice_list.map (·.stop))
  let sp := if b = none then a else py2min a b
  (notBeginAt begin_at sp).getD 0

/-- The `endpoint` computation of `slices_not` (library.py:3218-3221). -/
def snEnd (slice_list : List PySlice) (end_at : Option Int) : Option Int :=
  let c := py2maxList (slice_list.map (·.start))
  let d := py2maxList (slice_list.map (·.stop))
  notEndAt end_at (py2max c d)

/-- The rasterise-mask-clump tail of `slices_not` (library.py:3223-3225):
`np.ma.zeros(endpoint)` raises on `None` or a negative size, marking raises
on a zero step, and the unmasked cells of `workspace[startpoint:endpoint]`
are clumped and shifted back. -/
def snRasterize (slice_list : List PySlice) (startpoint : Int)
    (endpoint : Option Int) : Except String (List PySlice) :=
  match endpoint with
  | none => .error "TypeError: np.ma.zeros(None)"
  | some ep =>
    if ep < 0 then .error "ValueError: negative dimensions"
    else if slice_list.any (fun s => s.step = some 0) then
      .error "ValueError: slice step cannot be zero"
    else
      let n := ep.toNat
      let window :=
        (sliceElems (some startpoint) (some ep) none n).map fun j =>
          npMark slice_list n j.toNat
      .ok (shift_slices (npClumpTrue (window.map (!·))) startpoint)

/-- `slices_not`: complement of the union of a slice list, computed by
rasterising onto a workspace of length `endpoint`, masking the marked cells
and clumping the unmasked cells of `workspace[startpoint:endpoint]`.
A step above one is rejected explicitly. -/
def slices_not (slice_list : List PySlice) (begin_at end_at : Option Int) :
    Except String (List PySlice) :=
  if slice_list.isEmpty then .ok [⟨begin_at, end_at, none⟩]
  else
    let c := py2maxList (slice_list.map (·.step))
    if py2lt (some 1) c then
      .error "slices_not does not cater for non-unity steps"
    else
      snRasterize slice_list (snStart slice_list begin_at)
        (snEnd slice_list end_at)

/-! ## `slices_or` (library.py:3228) -/

/-- State of the endpoint scan at the top of `slices_or`: the running `a`
(min start, unused afterwards) and `b` (max stop).  Python cannot tell an
unset variable `a = None` from one reset to `None` by `min(a, None)`, so a
single `Option` faithfully carries both. -/
structure OrAcc where
  a : Option Int
  b : Option Int
  deriving DecidableEq, Repr

/-- The inner `for each_slice in slice_list` loop of `slices_or`.  A slice
object is always truthy, so `if not each_slice: break` never fires; the
second `break` fires on a `None` stop and skips the rest of the list. -/
def orScanList (acc : OrAcc) : List PySlice → OrAcc
  | [] => acc
  | s :: rest =>
    let a' :=
      match acc.a with
      | none => some (pyOrI s.start 0)
      | some av => py2min (some av) s.start
    match s.stop with
    | none => { a := a', b := acc.b }
    | some sv =>
      orScanList
        { a := a',
          b := match acc.b with
               | none => some sv
               | some bv => py2max (some bv) (some sv) }
        rest

/-- `slices_or`: union of several slice lists.  Returns Python `None`
(`Option.none`) when called with no lists, and falls off the end — also
returning `None` — when `startpoint >= 0 and endpoint > 0` fails, e.g. when
every list is empty so no `b` endpoint was ever established.  Raises
`ValueError` when a list is `None`. -/
def slices_or (slice_lists : List (Option (List PySlice)))
    (begin_at end_at : Option Int) :
    Except String (Option (List PySlice)) :=
  if slice_lists.isEmpty then .ok none
  else do
    let acc ← slice_lists.foldlM
      (fun (acc : OrAcc) ol =>
        match ol with
        | none =>
          Except.error "slices_or called with slice list of None"
        | some l => Except.ok (orScanList acc l))
      ({ a := none, b := none } : OrAcc)
    let startpoint : Int := begin_at.getD 0
    let endpoint : Option Int :=
      match end_at with
      | some v => some v
      | none => acc.b
    if 0 ≤ startpoint ∧ py2lt (some 0) endpoint then
      match acc.b with
      | none => .error "TypeError: np.ma.zeros(None)"
      | some bv =>
        if bv < 0 then .error "ValueError: negative dimensions"
        else if slice_lists.any
            (fun ol => (ol.getD []).any (fun s => s.step = some 0)) then
          .error "ValueError: slice step cannot be zero"
        else
          let n := bv.toNat
          let allSlices := slice_lists.flatMap (fun ol => ol.getD [])
          let window :=
            (sliceElems (some startpoint) endpoint none n).map fun j =>
              npMark allSlices n j.toNat
          .ok (some (shift_slices (npClumpTrue window) startpoint))
    else .ok none

/-! ## `slices_remove_small_gaps` / `slices_remove_small_slices`
(library.py:3283,3311) -/

/-- The merge loop of `slices_remove_small_gaps`: Python keeps
`new_list = prefix ++ [last]` and either widens `last` in place or pushes a
new slice; here the settled prefix is emitted as the recursion unwinds.
Arithmetic on a `None` bound raises `TypeError`, as in Python 2. -/
def mergeLoop (lim : Rat) (last : PySlice) :
    List PySlice → Except String (List PySlice)
  | [] => .ok [last]
  | s :: rest =>
    match s.start, last.stop with
    | some a, some b =>
      if ((a - b : Int) : Rat) < lim then
        mergeLoop lim ⟨last.start, s.stop, none⟩ rest
      else do
        let r ← mergeLoop lim s rest
        .ok (last :: r)
    | _, _ => .error "TypeError: unsupported operand type"

/-- `slices_remove_small_gaps`: merge adjacent slices whose gap is below
`time_limit * hz` samples; `None` input and lists of fewer than two slices
pass through unchanged. -/
def slices_remove_small_gaps (slice_list : Option (List PySlice))
    (time_limit hz : Rat) : Except String (Option (List PySlice)) :=
  let sample_limit := time_limit * hz
  match slice_list with
  | none => .ok none
  | some l =>
    if l.length < 2 then .ok (some l)
    else
      match l with
      | [] => .ok (some [])
      | h :: t => do
        let r ← mergeLoop sample_limit h t
        .ok (some r)

/-- The per-slice test of `slices_remove_small_slices`:
`slice.stop - slice.start > sample_limit`, with a Python 2 `TypeError` on a
`None` bound. -/
def removeSliceTest (sample_limit : Rat) (s : PySlice) :
    Except String Bool :=
  match s.stop, s.start with
  | some b, some a =>
    Except.ok (decide (sample_limit < ((b - a : Int) : Rat)))
  | _, _ =>
    Except.error "TypeError: unsupported operand type"

/-- `slices_remove_small_slices`: keep slices strictly longer than the
sample limit (`count` if truthy, else `time_limit * hz`); `None` input
passes through. -/
def slices_remove_small_slices (slice_list : Option (List PySlice))
    (time_limit hz : Rat) (count : Option Int) :
    Except String (Option (List PySlice)) :=
  let sample_limit : Rat :=
    match count with
    | some c => if c = 0 then time_limit * hz else (c : Rat)
    | none => time_limit * hz
  match slice_list with
  | none => .ok none
  | some l => do
    let r ← l.filterM (removeSliceTest sample_limit)
    .ok (some r)

/-! ## `repair_mask` (library.py:4793) -/

/-- Overwrite `arr[s : s + vals.length]` with `vals` (an in-place numpy
section assignment). -/
def setRange (arr : MArr) (s : Nat) (vals : MArr) : MArr :=
  arr.take s ++ vals ++ arr.drop (s + vals.length)

/-- `np.interp(j + 1, [0, length + 1], [sv, ev])` for `j = 0 .. length-1`:
the linear interpolation used to fill a masked section between its two
bounding valid samples. -/
def interpFill (sv ev : Rat) (length : Nat) : MArr :=
  (List.range length).map fun j : Nat =>
    some (sv + ((j : Rat) + 1) * (ev - sv) / ((length : Rat) + 1))

/-- One masked section of `repair_mask`'s loop.  `section.stop` (and
`section.start - 1`, when the section is interior) index unmasked samples by
maximality of `np.ma.clump_masked` runs, so reading them with a default of
`0` is exact. -/
def repairSection (repair_samples : Option Rat)
    (raise_duration_exceedance extrapolate zero_if_masked : Bool)
    (repair_above : Option Rat) (n : Nat) (arr : MArr) (sec : Nat × Nat) :
    Except String MArr :=
  if (match repair_samples with
      | some rs => decide (rs < ((sec.2 - sec.1 : Nat) : Rat))
      | none => false) then
    if raise_duration_exceedance then
      .error "Length of masked section exceeds repair duration."
    else .ok arr
  else if sec.1 = 0 then
    if extrapolate then
      if zero_if_masked then
        .ok (setRange arr sec.1 (List.replicate (sec.2 - sec.1) (some 0)))
      else
        .ok (setRange arr sec.1
          (List.replicate (sec.2 - sec.1)
            (some ((arr.getD sec.2 none).getD 0))))
    else .ok arr
  else if sec.2 = n then
    if extrapolate then
      if zero_if_masked then
        .ok (setRange arr sec.1 (List.replicate (sec.2 - sec.1) (some 0)))
      else
        .ok (setRange arr sec.1
          (List.replicate (sec.2 - sec.1)
            (some ((arr.getD (sec.1 - 1) none).getD 0))))
    else .ok arr
  else
    if (match repair_above with
        | none => true
        | some ra =>
          decide (ra < (arr.getD (sec.1 - 1) none).getD 0 ∧
            ra < (arr.getD sec.2 none).getD 0)) then
      .ok (setRange arr sec.1
        (interpFill ((arr.getD (sec.1 - 1) none).getD 0)
          ((arr.getD sec.2 none).getD 0) (sec.2 - sec.1)))
    else .ok arr

/-- The repair-length budget in samples: `repair_duration * frequency`,
with falsy (`None` or `0`) durations meaning unlimited. -/
def repairSamples (repair_duration : Option Rat) (frequency : Rat) :
    Option Rat :=
  match repair_duration with
  | some d => if d = 0 then none else some (d * frequency)
  | none => none

/-- `repair_mask`: fill masked runs no longer than
`repair_duration * frequency` samples by linear interpolation between the
bounding valid samples (extrapolating at the data edges only when
`extrapolate`); raise if the whole array is masked (unless
`zero_if_masked`, which returns a fully masked zero array).  The `copy`
flag only controls in-place mutation and has no observable effect in this
value semantics. -/
def repair_mask (array : MArr) (frequency : Rat)
    (repair_duration : Option Rat)
    (raise_duration_exceedance copy extrapolate zero_if_masked : Bool)
    (repair_above : Option Rat) : Except String MArr :=
  if maCount array = 0 then
    if zero_if_masked then .ok (array.map fun _ => none)
    else .error "Array cannot be repaired as it is entirely masked"
  else
    let _ := copy
    (clumps (fun i => (array.getD i none).isNone) 0 array.length).foldlM
      (repairSection (repairSamples repair_duration frequency)
        raise_duration_exceedance extrapolate zero_if_masked repair_above
        array.length)
      array

/-! ## First-order filters (library.py:1799,1852,1895) -/

/-- `scipy.signal.lfilter_zi` for a first-order filter with `a0 = 1`: the
steady-state Direct Form II transposed delay value for a unit step. -/
def lfilter_zi1 (b0 b1 a1 : Rat) : Rat := (b1 - a1 * b0) / (1 + a1)

/-- `scipy.signal.lfilter` for a first-order filter in Direct Form II
transposed: `y[n] = b0*x[n] + z[n-1]`, `z[n] = b1*x[n] - a1*y[n]`. -/
def lfilterDF2T (b0 b1 a1 : Rat) (zi : Rat) : List Rat → List Rat
  | [] => []
  | x :: xs =>
    let y := b0 * x + zi
    y :: lfilterDF2T b0 b1 a1 (b1 * x - a1 * y) xs

/-- `masked_first_order_filter` (library.py:1852): run the filter over each
unmasked clump (the initial state being `lfilter_zi * initial_value`),
assembling into a zero array, then re-mask the originally masked runs.
Python rebinds `initial_value` inside the loop, so the first clump's first
sample seeds every later clump when no initial value was supplied. -/
def masked_first_order_filter (a1 b0 b1 : Rat) (param : MArr)
    (initial_value : Option Rat) : MArr :=
  let z_initial := lfilter_zi1 b0 b1 a1
  let good_parts := clumps (fun i => (param.getD i none).isSome) 0 param.length
  let result : MArr := List.replicate param.length (some 0)
  let step := fun (st : MArr × Option Rat) (part : Nat × Nat) =>
    let vals := ((List.range (part.2 - part.1)).map fun j =>
      (param.getD (part.1 + j) none).getD 0)
    let iv := st.2.getD ((param.getD part.1 none).getD 0)
    let answer := lfilterDF2T b0 b1 a1 (z_initial * iv) vals
    (setRange st.1 part.1 (answer.map some), some iv)
  let filled := (good_parts.foldl step (result, initial_value)).1
  let bad_parts := clumps (fun i => (param.getD i none).isNone) 0 param.length
  bad_parts.foldl
    (fun arr part =>
      setRange arr part.1 (List.replicate (part.2 - part.1) none))
    filled

/-- `first_order_lag` (library.py:1799): discretised RC low-pass; raises
when the scaled time constant is below the half-sample stability limit. -/
def first_order_lag (param : MArr) (time_constant hz gain : Rat)
    (initial_value : Option Rat) : Except String MArr :=
  let tc := time_constant * hz
  if tc < 1/2 then .error "Lag timeconstant too small"
  else
    let x0 := gain / (1 + 2 * tc)
    let x1 := gain / (1 + 2 * tc)
    let y1 := (1 - 2 * tc) / (1 + 2 * tc)
    .ok (masked_first_order_filter y1 x0 x1 param initial_value)

/-- `first_order_washout` (library.py:1895): discretised RC high-pass; same
stability guard as the lag. -/
def first_order_washout (param : MArr) (time_constant hz gain : Rat)
    (initial_value : Option Rat) : Except String MArr :=
  let tc := time_constant * hz
  if tc < 1/2 then .error "Lag timeconstant too small"
  else
    let x0 := gain * 2 * tc / (1 + 2 * tc)
    let x1 := -(gain * 2 * tc) / (1 + 2 * tc)
    let y1 := (1 - 2 * tc) / (1 + 2 * tc)
    .ok (masked_first_order_filter y1 x0 x1 param initial_value)

/-! ## Valid-sample helpers (library.py:1252,1745,1772) -/

/-- `np.ma.argmin`: index of the smallest unmasked entry (first on ties);
numpy returns `0` on a fully masked array. -/
def argminUnmasked (l : List (Option Rat)) : Nat :=
  match l.enum.filterMap (fun iv => iv.2.map (fun v => (iv.1, v))) with
  | [] => 0
  | x :: xs => (xs.foldl (fun best c => if c.2 < best.2 then c else best) x).1

/-- `np.ma.ediff1d`: consecutive differences, masked where either operand
is masked. -/
def maEdiff1d (a : MArr) : MArr :=
  List.zipWith (fun prev next => prev.bind fun p => next.map fun nx => nx - p)
    a a.tail

/-- `np.ma.flatnotmasked_edges`: indices of the first and last unmasked
entries, or `None` when fully masked. -/
def maFlatnotmaskedEdges (a : MArr) : Option (Nat × Nat) :=
  let idxs := a.enum.filterMap fun iv => if iv.2.isSome then some iv.1 else none
  match idxs with
  | [] => none
  | h :: t => some (h, t.foldl (fun _ x => x) h)

/-- The inner `find_unmasked_value` of `closest_unmasked_value`
(library.py:1269): returns the position (in unsliced coordinates, possibly
fractional because the slice start may be fractional). -/
def find_unmasked_value (sl : QSlice) (array : MArr) (index : Rat) :
    Except String Rat :=
  let slice_start := pyOrQ sl.start 0
  let slice_stop := pyOrQ sl.stop (array.length : Rat)
  if 0 ≤ index ∧ slice_stop < index then
    .error "IndexError: index is beyond length of sliced data"
  else if index < 0 ∧ (array.length : Rat) < |index| then
    .error "IndexError: negative index goes beyond array length"
  else
    let index := if index < 0 then |(array.length : Rat) + index| else index
    let sliced := pyGetSliceQ array sl
    let rel_index := index - slice_start
    if maCount sliced = 0 ∨ (sliced.length : Rat) < |rel_index| then
      .error "IndexError: No valid data to find at index"
    else
      let relative_pos := argminUnmasked ((List.range sliced.length).map
        fun j =>
          if (sliced.getD j none).isSome then some |(j : Rat) - rel_index|
          else none)
      .ok ((relative_pos : Rat) + slice_start)

/-- `closest_unmasked_value` (library.py:1252), always called here with a
slice argument.  Returns the `Value(index, value)` pair; any of the
internal `IndexError`/`NotImplementedError` raises surfaces as an error. -/
def closest_unmasked_value (array : MArr) (index : Rat) (sl : QSlice) :
    Except String (Rat × Option Rat) :=
  let n : Rat := array.length
  if index < 0 then
    .error "NotImplementedError: Negative indexing on slice not supported"
  else if (match sl.step with
           | some k => !decide (k = 0) && decide (k = -1)
           | none => false) then do
    let neg_pos ← find_unmasked_value
      ⟨some (n - pyOrQ sl.start n), some (n - pyOrQ sl.stop 0), none⟩
      array.reverse (n - pyOrQ sl.start n)
    let pos := n - neg_pos - 1
    .ok (pos, maGet array (pyInt pos))
  else do
    let pos ← find_unmasked_value sl array index
    .ok (pos, maGet array (pyInt pos))

/-- `first_valid_sample` (library.py:1745). -/
def first_valid_sample (array : MArr) (start_index : Int) :
    Option Int × Option Rat :=
  if ¬(0 ≤ start_index ∧ start_index < (array.length : Int)) then
    (none, none)
  else
    match npClumpUnmasked (pyGetSlice array (some start_index) none none) with
    | [] => (none, none)
    | c :: _ =>
      match c.start with
      | some s => (some (s + start_index), maGet array (s + start_index))
      | none => (none, none)

/-- `last_valid_sample` (library.py:1772).  The returned index is relative
to the `array[:end_index+1]` prefix but the value is read from the original
array, exactly as the source does. -/
def last_valid_sample (array : MArr) (end_index : Option Int) :
    Option Int × Option Rat :=
  let go : Int → Option Int × Option Rat := fun e =>
    match (npClumpUnmasked (pyGetSlice array none (some (e + 1)) none)).getLast? with
    | some c =>
      match c.stop with
      | some t => (some (t - 1), maGet array (t - 1))
      | none => (none, none)
    | none => (none, none)
  match end_index with
  | none => go (array.length : Int)
  | some v => if (array.length : Int) < v then (none, none) else go v

/-! ## `index_at_value` (library.py:5996) -/

/-- The effective step of the scan slice: `_slice.step or 1` (`None` and
`0` are falsy). -/
def iavStep (sl : QSlice) : Int :=
  match sl.step with
  | none => 1
  | some k => if k = 0 then 1 else k

/-- The clamped scan start index of `index_at_value`. -/
def iavBegin (sl : QSlice) (max_index : Nat) : Int :=
  if iavStep sl = 1 then max (pyRound (pyOrQ sl.start 0)) 0
  else min (pyRound (pyOrQ sl.start (max_index : Rat))) ((max_index : Int) - 1)

/-- The clamped scan end index of `index_at_value` (note the source uses
`round` forwards but bare `int` truncation backwards). -/
def iavEnd (sl : QSlice) (max_index : Nat) : Int :=
  if iavStep sl = 1 then min (pyRound (pyOrQ sl.stop (max_index : Rat))) (max_index : Int)
  else max (pyInt (pyOrQ sl.stop 0)) 0

/-- The index lists of the `left` and `right` scan slices. -/
def iavLeft (sl : QSlice) (n : Nat) : List Int :=
  let b := iavBegin sl n
  let e := iavEnd sl n
  if iavStep sl = 1 then sliceElems (some b) (some (e - 1)) (some 1) n
  else sliceElems (some b) (some e) (some (-1)) n

/-- See `iavLeft`. -/
def iavRight (sl : QSlice) (n : Nat) : List Int :=
  let b := iavBegin sl n
  let e := iavEnd sl n
  if iavStep sl = 1 then sliceElems (some (b + 1)) (some e) (some 1) n
  else sliceElems (some (b - 1))
    (if 0 < e then some (e - 1) else none) (some (-1)) n

/-- `test_array`: the pairwise `(x - threshold) * (y - threshold)` products,
masked where either operand is masked or where the product is positive
(`np.ma.masked_greater(..., 0.0)`). -/
def iavTest (array : MArr) (threshold : Rat) (sl : QSlice) :
    List (Option Rat) :=
  let n := array.length
  List.zipWith
    (fun i j =>
      (maGet array i).bind fun x =>
        (maGet array j).bind fun y =>
          let v := (x - threshold) * (y - threshold)
          if 0 < v then none else some v)
    (iavLeft sl n) (iavRight sl n)

/-- The position (within `test_array`) of the first detected crossing:
`np.ma.flatnotmasked_edges(test_array)[0]`. -/
def iavCrossN (array : MArr) (threshold : Rat) (sl : QSlice) : Nat :=
  (iavTest array threshold sl).findIdx Option.isSome

/-- The `'closing'` fallback of `index_at_value`: last point where the data
is still closing on the threshold. -/
def iavClosing (array : MArr) (threshold : Rat) (sl : QSlice) (step : Int) :
    Except String (Option Rat) :=
  let diff := maEdiff1d (pyGetSliceQ array sl)
  match closest_unmasked_value array (pyOrQ sl.start 0) sl with
  | .error _ => .ok none
  | .ok (_, value) =>
    let want_neg : Bool :=
      match value with
      | none => true
      | some v => decide (v ≤ threshold)
    let pred : Option Rat → Bool := fun o =>
      match o with
      | some d => if want_neg then decide (d < 0) else decide (0 < d)
      | none => false
    match (diff.enum.filter fun iv => pred iv.2).head? with
    | some iv => .ok (some (pyOrQ sl.start 0 + (step : Rat) * iv.1))
    | none =>
      .ok (some
        (match sl.stop with
         | some v => if v = 0 then (array.length : Rat) - 1 else v - step
         | none => (array.length : Rat) - 1))

/-- `index_at_value` (library.py:5996): find the interpolated index where
the array first crosses `threshold` inside the slice, scanning in the
slice's direction; `endpoint` selects the fallback when no true crossing
exists. -/
def index_at_value (array : MArr) (threshold : Rat) (sl : QSlice)
    (endpoint : String) : Except String (Option Rat) :=
  let step := iavStep sl
  let n := array.length
  if step = 1 ∨ step = -1 then
    let begin_ := iavBegin sl n
    let end_ := iavEnd sl n
    if begin_ = end_ then .ok none
    else if (begin_ - end_).natAbs < 2 then .ok none
    else
      let test := iavTest array threshold sl
      if test.length = 0 then .ok none
      else if sl.stop = sl.start ∧ sl.start ≠ none then .ok none
      else if (test.filter Option.isSome).length = 0 then
        if endpoint = "closing" then iavClosing array threshold sl step
        else if endpoint = "nearest" then
          let closing_array := array.map (Option.map fun v => |v - threshold|)
          .ok (some ((begin_ : Rat) +
            (step : Rat) * (argminUnmasked (pyGetSliceQ closing_array sl) : Rat)))
        else .ok none
      else
        let nidx := iavCrossN array threshold sl
        let a := maGet array (begin_ + step * nidx)
        let b := maGet array (begin_ + step * (nidx + 1))
        let r : Rat :=
          match a, b with
          | some x, some y => if x = y then 1/2 else (threshold - x) / (y - x)
          | _, _ => 1/2
        .ok (some ((begin_ : Rat) + (step : Rat) * ((nidx : Rat) + r)))
  else .error "Step length not 1 in index_at_value"

/-! ## `rate_of_change_array` (library.py:4695) -/

/-- Sum of a list of masked terms: masked if any term is masked (this is
what numpy's reduction over an object array holding `masked` yields). -/
def sumOpt (l : List (Option Rat)) : Option Rat :=
  l.foldl (fun acc o => acc.bind fun a => o.map (a + ·)) (some 0)

/-- `rate_of_change_array` (library.py:4695): sliding differentiation.
`two_points` is the central/edge finite difference with the mask spread
over the differentiation span; `regression` is the equi-spaced least-squares
slope computed by convolution over an edge-extended copy of the data. -/
def rate_of_change_array (to_diff : MArr) (hz : Rat) (width : Option Rat)
    (method : String) : Except String MArr :=
  if width = none ∧ hz = 0 then
    .error "ZeroDivisionError: division by zero"
  else
    let w : Rat := match width with | some x => x | none => 2 / hz
    let hw : Int := pyInt (w * hz / 2)
    if hw < 1 then .error "Rate of change called with inadequate width."
    else if (to_diff.length : Int) ≤ 2 * hw then
      .ok (to_diff.map fun _ => some 0)
    else
      let L := to_diff.length
      let hwn := hw.toNat
      let at_ : Nat → Option Rat := fun j => to_diff.getD j none
      if method = "two_points" then
        -- three section assignments: slope[hw:-hw], slope[:hw], slope[-hw:]
        let slope1 : Nat → Option Rat := fun j =>
          if j < hwn then
            (at_ j).bind fun x => (at_ (j + 1)).map fun y => (y - x) * hz
          else if j < L - hwn then
            (at_ (j - hwn)).bind fun x =>
              (at_ (j + hwn)).map fun y => (y - x) / w
          else
            (at_ (j - 1)).bind fun x => (at_ j).map fun y => (y - x) * hz
        -- mask spreading: or-in the input mask shifted by 1..hw each way
        let spread : Nat → Bool := fun j =>
          (List.range (hwn + 1)).any fun k =>
            (decide (j + k < L) && (at_ (j + k)).isNone) ||
            (decide (k ≤ j) && (at_ (j - k)).isNone)
        .ok ((List.range L).map fun j => if spread j then none else slope1 j)
      else if method = "regression" then
        let sx2_hz : Rat :=
          (((List.range (2 * hwn + 1)).map fun m =>
            ((m : Rat) - (hwn : Rat)) ^ 2).foldl (· + ·) 0) / hz
        let z : MArr :=
          List.replicate hwn (to_diff.getD 0 none) ++ to_diff ++
            List.replicate hwn (to_diff.getD (L - 1) none)
        -- np.convolve(z, -x, 'same')[hw:-hw]
        .ok ((List.range L).map fun t =>
          (sumOpt ((List.range (2 * hwn + 1)).map fun m =>
            (z.getD (t + m) none).map (· * ((m : Rat) - (hwn : Rat))))).map
            (· / sx2_hz))
      else .error "Rate of change called with unrecognised method"

/-! ## `scan_ils` (flight_phase.py:687) -/

/-- `scan_ils`: multi-phase search for an established ILS beam interval
inside `scan_slice`.  Every failed precondition returns Python `None`
(`Option.none`); the established interval, when found, has the fractional
capture/loss indices as bounds. -/
def scan_ils (beam : String) (ils_dots : MArr) (height : MArr)
    (scan_slice : PySlice) (frequency : Rat) (duration : Rat) :
    Except String (Option QSlice) := do
  if ¬(beam = "localizer" ∨ beam = "glideslope") then
    throw "Unrecognised beam type in scan_ils"
  else
    let win := pyGetSlice ils_dots scan_slice.start scan_slice.stop
      scan_slice.step
    if (maCount win : Rat) < duration * frequency then
      -- less than duration seconds of valid data within slice
      return none
    else
      match maFlatnotmaskedEdges win with
      | none => return none
      | some (fe, le) =>
        match scan_slice.start with
        | none => throw "TypeError: unsupported operand type"
        | some ss =>
          let valid_arr := pyGetSlice ils_dots (some ((fe : Int) + ss))
            (some ((le : Int) + ss)) none
          if valid_arr.length = 0 then
            throw "ZeroDivisionError: float division"
          else if (maCount valid_arr : Rat) / (valid_arr.length : Rat)
              < 2/5 then
            -- less than 40% valid data within valid data slice
            return none
          else
            let ils_abs ← repair_mask (ils_dots.map (Option.map abs))
              frequency (some 5) false false false false none
            let lv := last_valid_sample (pyGetSlice ils_abs scan_slice.start
              scan_slice.stop scan_slice.step) none
            let ils_lost_idx ←
              match lv.2 with
              | v =>
                if (match v with
                    | none => true
                    | some x => decide (x < 5/2)) then
                  match lv.1 with
                  | none => throw "TypeError: unsupported operand type"
                  | some i => pure (some ((ss : Rat) + (i : Rat) + 1))
                else
                  index_at_value ils_abs (5/2)
                    ⟨scan_slice.stop.map (fun x => (x : Rat)),
                     some (ss : Rat), some (-1)⟩ "exact"
            match ils_lost_idx with
            | none => return none
            | some lost0 => do
              let lost ←
                if beam = "glideslope" then do
                  let idx200 ← index_at_value height 200
                    ⟨scan_slice.stop.map (fun x => (x : Rat)),
                     some (ss : Rat), some (-1)⟩ "closing"
                  let lost1 :=
                    match idx200 with
                    | some v => min lost0 v
                    | none => lost0
                  pure lost1
                else pure lost0
              if beam = "glideslope" ∧
                  maCount (pyGetSlice ils_dots (some ss)
                    (some (pyInt lost)) none) < 5 then
                return none
              else do
                let scan_start_idx ← index_at_value ils_abs (5/2)
                  ⟨some (lost - 1), some ((ss : Rat) - 1), some (-1)⟩ "exact"
                let ils_capture_idx ←
                  if (match scan_start_idx with
                      | some v => !decide (v = 0)
                      | none => false) then
                    index_at_value ils_abs 1
                      ⟨scan_start_idx, some lost, none⟩ "exact"
                  else
                    let fv := first_valid_sample
                      (pyGetSlice ils_abs (some ss) (some (pyInt lost)) none) 0
                    if (match fv.2 with
                        | none => true
                        | some x => decide (x < 1)) then
                      match fv.1 with
                      | none => throw "TypeError: unsupported operand type"
                      | some i => pure (some ((ss : Rat) + (i : Rat)))
                    else
                      index_at_value ils_abs 1
                        ⟨some (ss : Rat), some lost, none⟩ "exact"
                match ils_capture_idx with
                | none => return none
                | some cap => do
                  -- final sanity check: did the deviation rate change sign?
                  let width : Rat := if frequency < 1/2 then 10 else 5
                  let rates ← rate_of_change_array
                    (pyGetSliceQ ils_dots ⟨some cap, some lost, none⟩)
                    frequency (some width) "regression"
                  match rates with
                  | [] => throw "ValueError: max() arg is an empty sequence"
                  | _ =>
                    -- `max()`/`min()` over the rate trace; a masked entry
                    -- would poison the Python comparison, modelled as an
                    -- error (the trace is unmasked whenever this branch is
                    -- reached on real data).
                    if rates.any Option.isNone then
                      throw "TypeError: comparison with masked value"
                    else
                      let vals := rates.filterMap id
                      let top := vals.foldl max (vals.headD 0)
                      let bottom := vals.foldl min (vals.headD 0)
                      if 0 < top * bottom then return none
                      else return (some ⟨some cap, some lost, none⟩)

/-! ## `Airborne.derive` (flight_phase.py:70) -/

/-- A named input series: `.array`, `.frequency` (the source's `.hz` is an
alias for `.frequency` on Parameter objects). -/
structure Parameter where
  array : MArr
  frequency : Rat
  deriving DecidableEq, Repr

/-- Modelled from the spec: a Section/phase node (node base classes are not
among the analysed sources) carries a list of intervals — returned by
`get_slices()` — and the sample rate of the parameter they index. -/
structure SectionNode where
  slices : List PySlice
  frequency : Rat
  deriving DecidableEq, Repr

/-- `speedy_slices`: the fast intervals with sub-60-second gaps removed
(flight_phase.py:83). -/
def airborneSpeedySlices (fast : SectionNode) : Except String (List PySlice) :=
  (slices_remove_small_gaps (some fast.slices) 60 fast.frequency).map
    (·.getD [])

/-- `airs` for one fast interval: positive-altitude clumps of the fast
section of the altitude series, with sub-40-second gaps removed
(flight_phase.py:92-103). -/
def airborneAirs (alt_aal : Parameter) (speedy : PySlice) :
    Except String (List PySlice) :=
  let start_point := pyOrI speedy.start 0
  let stop_point := pyOrI speedy.stop (alt_aal.array.length : Int)
  let working_alt := pyGetSlice alt_aal.array (some start_point)
    (some stop_point) none
  (slices_remove_small_gaps
    (some (npClumpUnmasked (working_alt.map fun o =>
      o.bind fun v => if v ≤ 0 then none else some v)))
    40 alt_aal.frequency).map (·.getD [])

/-- The `for air in airs` loop (flight_phase.py:106-120): open the bound on
a side that touches the data edge, and otherwise keep the run only when its
duration in seconds exceeds the threshold.  Modelled from the spec:
`self.create_phase` registers one interval on the node's output, so the
loop returns the created intervals in order (`shift_slice` never returns
`None` on the slices this loop builds, so `Option.toList` adds nothing). -/
def airborneAirLoop (alt_aal : Parameter) (threshold : Rat)
    (start_point : Int) : List PySlice → Except String (List PySlice)
  | [] => .ok []
  | air :: rest => do
    match air.start, air.stop with
    | some s, some t =>
      let begin_ : Option Int := if s + start_point = 0 then none else some s
      let end_ : Option Int :=
        if (alt_aal.array.length : Int) ≤ t + start_point then none
        else some t
      let phases ←
        if begin_ = none ∨ end_ = none then
          pure (shift_slice ⟨begin_, end_, none⟩ start_point).toList
        else if alt_aal.frequency = 0 then
          throw "ZeroDivisionError: division by zero"
        else if threshold < ((t - s : Int) : Rat) / alt_aal.frequency then
          pure (shift_slice ⟨some s, some t, none⟩ start_point).toList
        else pure []
      let restp ← airborneAirLoop alt_aal threshold start_point rest
      .ok (phases ++ restp)
    | _, _ => throw "TypeError: unsupported operand type"

/-- The `for speedy in speedy_slices` loop (flight_phase.py:87-120); a fast
interval open at both ends breaks out of the loop entirely.  (`working_alt
is None` never holds — slicing an array yields an array — so that `break`
is dead code.) -/
def airborneLoop (alt_aal : Parameter) (threshold : Rat) :
    List PySlice → Except String (List PySlice)
  | [] => .ok []
  | speedy :: rest =>
    if speedy.start = none ∧ speedy.stop = none then .ok []
    else do
      let airs ← airborneAirs alt_aal speedy
      let ph ← airborneAirLoop alt_aal threshold (pyOrI speedy.start 0) airs
      let restp ← airborneLoop alt_aal threshold rest
      .ok (ph ++ restp)

/-- `Airborne.derive` (flight_phase.py:79): the list of created phases, in
creation order.  `AIRBORNE_THRESHOLD_TIME` lives in the settings module,
which is not among the analysed sources; it is taken as the `threshold`
parameter (modelled from the spec: a fixed minimum-duration constant in
seconds). -/
def Airborne.derive (alt_aal : Parameter) (fast : SectionNode)
    (threshold : Rat) : Except String (List PySlice) := do
  let speedys ← airborneSpeedySlices fast
  airborneLoop alt_aal threshold speedys

/-! # Verification layer: runs of marked cells

Specification-level vocabulary for the rasterise-and-clump pipeline of
`slices_not` / `slices_or`: a slice list "fully inside `[b, e)`" is a
normalised list of half-open natural-number runs. -/

/-- The slice `slice(r.1, r.2)` of a natural-number run. -/
def natRunSlice (r : Nat × Nat) : PySlice := intSlice (r.1 : Int) (r.2 : Int)

/-- A normalised run list: ascending, non-degenerate, separated by at least
one sample, starting at or after `lo` and stopping at or before `e`. -/
def runsNorm (lo e : Nat) : List (Nat × Nat) → Bool
  | [] => true
  | (s, t) :: rest =>
    decide (lo ≤ s) && decide (s < t) && decide (t ≤ e) &&
      runsNorm (t + 1) e rest

/-- Membership of an index in the union of a run list. -/
def runsMark (rs : List (Nat × Nat)) (i : Nat) : Bool :=
  rs.any fun r => decide (r.1 ≤ i) && decide (i < r.2)

/-! ## Verification layer: concrete forward slices as integer pairs

Vocabulary for the `slices_remove_small_gaps` /
`slices_remove_small_slices` composition: a list of slices with concrete
bounds is mirrored as a list of integer pairs, and the merge loop and the
length filter are shadowed at the pair level. -/

/-- The slice `slice(p.1, p.2)` of an integer pair. -/
def intPairSlice (p : Int × Int) : PySlice := ⟨some p.1, some p.2, none⟩

/-- Every slice is forward (`start ≤ stop`) and the list is ascending with
no overlap (each `stop` is at most the next `start`). -/
def pairsSorted : List (Int × Int) → Bool
  | [] => true
  | [p] => decide (p.1 ≤ p.2)
  | p :: q :: r =>
    decide (p.1 ≤ p.2) && decide (p.2 ≤ q.1) && pairsSorted (q :: r)

/-- Every consecutive gap is at least `lim` samples. -/
def pairsGaps (lim : Rat) : List (Int × Int) → Bool
  | [] => true
  | [_] => true
  | p :: q :: r =>
    decide (lim ≤ ((q.1 - p.2 : Int) : Rat)) && pairsGaps lim (q :: r)

/-- The keep test of `slices_remove_small_slices`: strictly longer than the
sample limit. -/
def pairKeep (c : Rat) (p : Int × Int) : Bool :=
  decide (c < ((p.2 - p.1 : Int) : Rat))

/-- Every slice of the list is strictly longer than `c` samples. -/
def pairsLens (c : Rat) (l : List (Int × Int)) : Bool := l.all (pairKeep c)

/-- The pair-level shadow of `mergeLoop`. -/
def pairMerge (lim : Rat) : Int × Int → List (Int × Int) → List (Int × Int)
  | last, [] => [last]
  | last, q :: rest =>
    if ((q.1 - last.2 : Int) : Rat) < lim then
      pairMerge lim (last.1, q.2) rest
    else last :: pairMerge lim q rest

/-- The pair-level shadow of `slices_remove_small_gaps` on a `some` list. -/
def pairGapsMerge (lim : Rat) (ps : List (Int × Int)) : List (Int × Int) :=
  if ps.length < 2 then ps
  else
    match ps with
    | [] => []
    | p :: t => pairMerge lim p t

/-- The length threshold of `slices_remove_small_slices`: `count` when
truthy, else `time_limit * hz`. -/
def removeLimit (time_limit hz : Rat) (count : Option Int) : Rat :=
  match count with
  | some c => if c = 0 then time_limit * hz else (c : Rat)
  | none => time_limit * hz

/-! ### Structural lemmas about `clumpsAux` -/

theorem clumpsAux_congr (p q : Nat → Bool) :
    ∀ (fuel i : Nat) (cur : Option Nat),
      (∀ j, i ≤ j → j < i + fuel → p j = q j) →
      clumpsAux p i cur fuel = clumpsAux q i cur fuel := by
  intro fuel
  induction fuel with
  | zero => intro i cur _; rfl
  | succ f ih =>
    intro i cur h
    have hi : p i = q i := h i (Nat.le_refl _) (by omega)
    simp only [clumpsAux, hi]
    have hr : ∀ cur', clumpsAux p (i + 1) cur' f =
        clumpsAux q (i + 1) cur' f := fun cur' =>
      ih (i + 1) cur' (fun j hj hj' => h j (by omega) (by omega))
    cases hq : q i
    · cases cur <;> simp [hr]
    · simp [hr]

theorem clumpsAux_false_skip (p : Nat → Bool) :
    ∀ (k i fuel : Nat),
      (∀ j, i ≤ j → j < i + k → p j = false) →
      clumpsAux p i none (k + fuel) = clumpsAux p (i + k) none fuel := by
  intro k
  induction k with
  | zero => intro i fuel _; rw [Nat.zero_add, Nat.add_zero]
  | succ n ih =>
    intro i fuel h
    have hi : p i = false := h i (Nat.le_refl _) (by omega)
    have h1 : n + 1 + fuel = (n + fuel) + 1 := by omega
    rw [h1]
    simp only [clumpsAux, hi]
    have h2 := ih (i + 1) fuel (fun j hj hj' => h j (by omega) (by omega))
    rw [h2]
    have h3 : i + 1 + n = i + (n + 1) := by omega
    rw [h3]
    simp

theorem clumpsAux_true_run_some (p : Nat → Bool) :
    ∀ (r i fuel : Nat) (s : Nat),
      (∀ j, i ≤ j → j < i + r → p j = true) →
      clumpsAux p i (some s) (r + fuel) =
        clumpsAux p (i + r) (some s) fuel := by
  intro r
  induction r with
  | zero => intro i fuel s _; rw [Nat.zero_add, Nat.add_zero]
  | succ n ih =>
    intro i fuel s h
    have hi : p i = true := h i (Nat.le_refl _) (by omega)
    have h1 : n + 1 + fuel = (n + fuel) + 1 := by omega
    rw [h1]
    simp only [clumpsAux, hi, Option.getD]
    have h2 := ih (i + 1) fuel s (fun j hj hj' => h j (by omega) (by omega))
    rw [h2]
    have h3 : i + 1 + n = i + (n + 1) := by omega
    rw [h3]
    simp

theorem clumpsAux_true_run_none (p : Nat → Bool) (r i fuel : Nat)
    (hr : 0 < r) (h : ∀ j, i ≤ j → j < i + r → p j = true) :
    clumpsAux p i none (r + fuel) = clumpsAux p (i + r) (some i) fuel := by
  obtain ⟨r', rfl⟩ : ∃ r', r = r' + 1 := ⟨r - 1, by omega⟩
  have hi : p i = true := h i (Nat.le_refl _) (by omega)
  have h1 : r' + 1 + fuel = r' + fuel + 1 := by omega
  rw [h1]
  simp only [clumpsAux, hi, Option.getD]
  rw [clumpsAux_true_run_some p r' (i + 1) fuel i
    (fun j hj hj' => h j (by omega) (by omega))]
  have h3 : i + 1 + r' = i + (r' + 1) := by omega
  rw [h3]
  simp

/-- Any index below the lower bound of a normalised run list is unmarked. -/
theorem runsMark_below (rs : List (Nat × Nat)) (lo e j : Nat)
    (hn : runsNorm lo e rs = true) (hj : j < lo) : runsMark rs j = false := by
  induction rs generalizing lo with
  | nil => rfl
  | cons r rest ih =>
    obtain ⟨s, t⟩ := r
    simp only [runsNorm, Bool.and_eq_true, decide_eq_true_eq] at hn
    obtain ⟨⟨⟨h1, h2⟩, h3⟩, h4⟩ := hn
    simp only [runsMark, List.any_cons, Bool.or_eq_false_iff]
    constructor
    · simp only [Bool.and_eq_false_iff, decide_eq_false_iff_not]
      left; omega
    · exact ih (t + 1) h4 (by omega)

/-- Every run of a normalised list lies inside `[lo, e)`. -/
theorem runsNorm_bounds (rs : List (Nat × Nat)) (lo e : Nat)
    (hn : runsNorm lo e rs = true) :
    ∀ r ∈ rs, lo ≤ r.1 ∧ r.1 < r.2 ∧ r.2 ≤ e := by
  induction rs generalizing lo with
  | nil => intro r hr; cases hr
  | cons r0 rest ih =>
    obtain ⟨s, t⟩ := r0
    simp only [runsNorm, Bool.and_eq_true, decide_eq_true_eq] at hn
    obtain ⟨⟨⟨h1, h2⟩, h3⟩, h4⟩ := hn
    intro r hr
    rcases hr with _ | hr
    · exact ⟨h1, h2, h3⟩
    · have := ih (t + 1) h4 r (by assumption)
      exact ⟨by omega, this.2.1, this.2.2⟩

/-- Weakening the lower bound of a normalised run list. -/
theorem runsNorm_mono (rs : List (Nat × Nat)) (lo lo' e : Nat)
    (hn : runsNorm lo e rs = true) (hlo : lo' ≤ lo) :
    runsNorm lo' e rs = true := by
  cases rs with
  | nil => rfl
  | cons r rest =>
    obtain ⟨s, t⟩ := r
    simp only [runsNorm, Bool.and_eq_true, decide_eq_true_eq] at hn ⊢
    exact ⟨⟨⟨by omega, hn.1.1.2⟩, hn.1.2⟩, hn.2⟩

/-- `clumps` recovers a normalised run list from its own marking. -/
theorem clumpsAux_runsMark :
    ∀ (rs : List (Nat × Nat)) (lo e : Nat),
      runsNorm lo e rs = true → lo ≤ e →
      clumpsAux (runsMark rs) lo none (e - lo) = rs := by
  intro rs
  induction rs with
  | nil =>
    intro lo e _ hle
    have : e - lo = (e - lo) + 0 := by omega
    rw [this, clumpsAux_false_skip (runsMark []) (e - lo) lo 0
      (fun j _ _ => rfl)]
    rfl
  | cons r0 rest ih =>
    intro lo e hn hle
    obtain ⟨s, t⟩ := r0
    simp only [runsNorm, Bool.and_eq_true, decide_eq_true_eq] at hn
    obtain ⟨⟨⟨h1, h2⟩, h3⟩, h4⟩ := hn
    have hbnds := runsNorm_bounds rest (t + 1) e h4
    -- the marking of the whole list
    set p := runsMark ((s, t) :: rest) with hp
    have hpfalse_low : ∀ j, lo ≤ j → j < s → p j = false := by
      intro j _ hj
      rw [hp]
      simp only [runsMark, List.any_cons, Bool.or_eq_false_iff]
      constructor
      · simp only [Bool.and_eq_false_iff, decide_eq_false_iff_not]
        left
        omega
      · have hb := runsMark_below rest (t + 1) e j h4 (by omega)
        simpa [runsMark] using hb
    have hptrue : ∀ j, s ≤ j → j < t → p j = true := by
      intro j hj hj'
      rw [hp]
      simp only [runsMark, List.any_cons, Bool.or_eq_true]
      left
      simp [hj, hj']
    have hp_eq_rest : ∀ j, t ≤ j → p j = runsMark rest j := by
      intro j hj
      rw [hp]
      simp only [runsMark, List.any_cons]
      have : (decide (s ≤ j) && decide (j < t)) = false := by
        simp only [Bool.and_eq_false_iff, decide_eq_false_iff_not]
        right; omega
      rw [this, Bool.false_or]
    -- skip [lo, s)
    have e1 : e - lo = (s - lo) + (e - s) := by omega
    rw [e1, clumpsAux_false_skip p (s - lo) lo (e - s) (fun j hj hj' =>
      hpfalse_low j hj (by omega))]
    have e2 : lo + (s - lo) = s := by omega
    rw [e2]
    -- consume the run [s, t)
    have e3 : e - s = (t - s) + (e - t) := by omega
    rw [e3, clumpsAux_true_run_none p (t - s) s (e - t) (by omega)
      (fun j hj hj' => hptrue j hj (by omega))]
    have e4 : s + (t - s) = t := by omega
    rw [e4]
    -- emit the run and recurse
    rcases Nat.eq_or_lt_of_le h3 with he | hlt
    · -- t = e: fuel exhausted; the rest must be empty
      subst he
      have hrest : rest = [] := by
        cases rest with
        | nil => rfl
        | cons r1 rr =>
          obtain ⟨u, v⟩ := r1
          have := hbnds (u, v) (by simp)
          omega
      subst hrest
      simp [clumpsAux]
    · -- t < e: the next cell is unmarked, emitting (s, t)
      have hft : e - t = (e - t - 1) + 1 := by omega
      have hpt : p t = false := by
        rw [hp_eq_rest t (Nat.le_refl _)]
        exact runsMark_below rest (t + 1) e t h4 (by omega)
      rw [hft]
      simp only [clumpsAux, hpt, Bool.false_eq_true, if_false]
      congr 1
      rw [clumpsAux_congr p (runsMark rest) (e - t - 1) (t + 1) none
        (fun j hj hj' => hp_eq_rest j (by omega))]
      have harith : e - t - 1 = e - (t + 1) := by omega
      rw [harith]
      exact ih (t + 1) e h4 (by omega)

/-- The output of the clump scanner is a normalised run list. -/
theorem clumpsAux_norm (p : Nat → Bool) :
    ∀ (fuel i : Nat) (cur : Option Nat) (lo : Nat),
      (match cur with
       | none => lo ≤ i
       | some s => lo ≤ s ∧ s < i) →
      runsNorm lo (i + fuel) (clumpsAux p i cur fuel) = true := by
  intro fuel
  induction fuel with
  | zero =>
    intro i cur lo hinv
    cases cur with
    | none => rfl
    | some s =>
      have h1 : lo ≤ s := hinv.1
      have h2 : s < i := hinv.2
      simp only [clumpsAux, runsNorm, Bool.and_eq_true, decide_eq_true_eq]
      exact ⟨⟨⟨h1, h2⟩, by omega⟩, trivial⟩
  | succ f ih =>
    intro i cur lo hinv
    have harith : i + (f + 1) = (i + 1) + f := by omega
    cases cur with
    | none =>
      cases hpi : p i with
      | true =>
        simp only [clumpsAux, hpi, if_true, Option.getD]
        rw [harith]
        exact ih (i + 1) (some i) lo ⟨hinv, by omega⟩
      | false =>
        simp only [clumpsAux, hpi, Bool.false_eq_true, if_false]
        rw [harith]
        exact ih (i + 1) none lo (by omega)
    | some s =>
      have h1 : lo ≤ s := hinv.1
      have h2 : s < i := hinv.2
      cases hpi : p i with
      | true =>
        simp only [clumpsAux, hpi, if_true, Option.getD]
        rw [harith]
        exact ih (i + 1) (some s) lo ⟨h1, by omega⟩
      | false =>
        simp only [clumpsAux, hpi, Bool.false_eq_true, if_false, runsNorm,
          Bool.and_eq_true, decide_eq_true_eq]
        refine ⟨⟨⟨h1, h2⟩, by omega⟩, ?_⟩
        rw [harith]
        exact ih (i + 1) none (i + 1) (by omega)

/-- An open run covers every already-scanned index once it is emitted. -/
theorem clumpsAux_cover (p : Nat → Bool) :
    ∀ (fuel i s j : Nat), s ≤ j → j < i →
      runsMark (clumpsAux p i (some s) fuel) j = true := by
  intro fuel
  induction fuel with
  | zero =>
    intro i s j h1 h2
    simp only [clumpsAux, runsMark, List.any_cons, List.any_nil,
      Bool.or_false, Bool.and_eq_true, decide_eq_true_eq]
    exact ⟨h1, h2⟩
  | succ f ih =>
    intro i s j h1 h2
    simp only [clumpsAux]
    cases hpi : p i with
    | true =>
      simp only [if_pos rfl, Option.getD]
      exact ih (i + 1) s j h1 (by omega)
    | false =>
      simp only [Bool.false_eq_true, if_false, runsMark, List.any_cons,
        Bool.or_eq_true]
      left
      simp only [Bool.and_eq_true, decide_eq_true_eq]
      exact ⟨h1, h2⟩

/-- Inside the scanned range, the marking of the scanner's output agrees
with the scanned predicate. -/
theorem clumpsAux_mark (p : Nat → Bool) :
    ∀ (fuel i : Nat) (cur : Option Nat),
      (match cur with
       | none => True
       | some s => s < i) →
      ∀ j, i ≤ j → j < i + fuel →
        runsMark (clumpsAux p i cur fuel) j = p j := by
  intro fuel
  induction fuel with
  | zero => intro i cur _ j h1 h2; omega
  | succ f ih =>
    intro i cur hinv j h1 h2
    cases cur with
    | none =>
      cases hpi : p i with
      | true =>
        simp only [clumpsAux, hpi, if_true, Option.getD]
        rcases Nat.eq_or_lt_of_le h1 with heq | hlt
        · subst heq
          rw [hpi]
          exact clumpsAux_cover p f (i + 1) i i (Nat.le_refl _) (by omega)
        · exact ih (i + 1) (some i) (by omega) j hlt (by omega)
      | false =>
        simp only [clumpsAux, hpi, Bool.false_eq_true, if_false]
        rcases Nat.eq_or_lt_of_le h1 with heq | hlt
        · subst heq
          rw [hpi]
          exact runsMark_below _ (i + 1) (i + 1 + f) i
            (clumpsAux_norm p f (i + 1) none (i + 1) (Nat.le_refl _))
            (by omega)
        · exact ih (i + 1) none trivial j hlt (by omega)
    | some s =>
      have hs : s < i := hinv
      cases hpi : p i with
      | true =>
        simp only [clumpsAux, hpi, if_true, Option.getD]
        rcases Nat.eq_or_lt_of_le h1 with heq | hlt
        · subst heq
          rw [hpi]
          exact clumpsAux_cover p f (i + 1) s i (by omega) (by omega)
        · exact ih (i + 1) (some s) (by omega) j hlt (by omega)
      | false =>
        simp only [clumpsAux, hpi, Bool.false_eq_true, if_false, runsMark,
          List.any_cons]
        have hhead : (decide (s ≤ j) && decide (j < i)) = false := by
          simp only [Bool.and_eq_false_iff, decide_eq_false_iff_not]
          right
          omega
        rw [hhead, Bool.false_or]
        rcases Nat.eq_or_lt_of_le h1 with heq | hlt
        · subst heq
          rw [hpi]
          have hb := runsMark_below _ (i + 1) (i + 1 + f) i
            (clumpsAux_norm p f (i + 1) none (i + 1) (Nat.le_refl _))
            (by omega)
          simpa [runsMark] using hb
        · have := ih (i + 1) none trivial j hlt (by omega)
          simpa [runsMark] using this

/-- A nonempty normalised run list that marks all of `[lo, e)` is the
single run `[(lo, e)]`. -/
theorem runsNorm_full (rs : List (Nat × Nat)) (lo e : Nat)
    (hn : runsNorm lo e rs = true) (hne : rs ≠ [])
    (hfull : ∀ j, lo ≤ j → j < e → runsMark rs j = true) :
    rs = [(lo, e)] := by
  cases rs with
  | nil => exact absurd rfl hne
  | cons r0 rest =>
    obtain ⟨s, t⟩ := r0
    simp only [runsNorm, Bool.and_eq_true, decide_eq_true_eq] at hn
    obtain ⟨⟨⟨h1, h2⟩, h3⟩, h4⟩ := hn
    have hbnds := runsNorm_bounds rest (t + 1) e h4
    have hs : s = lo := by
      by_contra hne'
      have hcov := hfull lo (Nat.le_refl _) (by omega)
      simp only [runsMark, List.any_cons, Bool.or_eq_true, Bool.and_eq_true,
        decide_eq_true_eq] at hcov
      rcases hcov with ⟨ha, _⟩ | hrest
      · omega
      · rw [← runsMark] at hrest
        rw [runsMark_below rest (t + 1) e lo h4 (by omega)] at hrest
        cases hrest
    have ht : t = e := by
      by_contra hne'
      have hcov := hfull t (by omega) (by omega)
      simp only [runsMark, List.any_cons, Bool.or_eq_true, Bool.and_eq_true,
        decide_eq_true_eq] at hcov
      rcases hcov with ⟨_, hb⟩ | hrest
      · omega
      · rw [← runsMark] at hrest
        rw [runsMark_below rest (t + 1) e t h4 (by omega)] at hrest
        cases hrest
    have hrest : rest = [] := by
      cases rest with
      | nil => rfl
      | cons r1 rr =>
        obtain ⟨u, v⟩ := r1
        have := hbnds (u, v) (by simp)
        omega
    rw [hs, ht, hrest]

/-! ### The rasterise-and-clump pipeline of `slices_not` on normalised input -/

theorem py2min_some (x y : Int) : py2min (some x) (some y) = some (min x y) := by
  simp only [py2min, py2lt]
  split <;> simp_all <;> omega

theorem py2max_some (x y : Int) : py2max (some x) (some y) = some (max x y) := by
  simp only [py2max, py2lt]
  split <;> simp_all <;> omega

theorem py2min_foldl_bounded (t : List (Option Int)) (lb : Int) :
    ∀ v0, lb ≤ v0 → (∀ x ∈ t, ∃ v, x = some v ∧ lb ≤ v) →
    ∃ m, t.foldl py2min (some v0) = some m ∧ lb ≤ m := by
  induction t with
  | nil => intro v0 hv0 _; exact ⟨v0, rfl, hv0⟩
  | cons y t' ih =>
    intro v0 hv0 h
    obtain ⟨w, rfl, hw⟩ := h y (by simp)
    simp only [List.foldl_cons, py2min_some]
    exact ih (min v0 w) (by omega) (fun x hx => h x (by simp [hx]))

/-- `min` of a nonempty all-`some` list with a common lower bound. -/
theorem py2minList_bounded (l : List (Option Int)) (lb : Int)
    (hne : l ≠ []) (h : ∀ x ∈ l, ∃ v, x = some v ∧ lb ≤ v) :
    ∃ m, py2minList l = some m ∧ lb ≤ m := by
  cases l with
  | nil => exact absurd rfl hne
  | cons x0 t =>
    obtain ⟨v0, rfl, hv0⟩ := h x0 (by simp)
    exact py2min_foldl_bounded t lb v0 hv0 (fun x hx => h x (by simp [hx]))

theorem py2max_foldl_bounded (t : List (Option Int)) (ub : Int) :
    ∀ v0, v0 ≤ ub → (∀ x ∈ t, ∃ v, x = some v ∧ v ≤ ub) →
    ∃ m, t.foldl py2max (some v0) = some m ∧ m ≤ ub := by
  induction t with
  | nil => intro v0 hv0 _; exact ⟨v0, rfl, hv0⟩
  | cons y t' ih =>
    intro v0 hv0 h
    obtain ⟨w, rfl, hw⟩ := h y (by simp)
    simp only [List.foldl_cons, py2max_some]
    exact ih (max v0 w) (by omega) (fun x hx => h x (by simp [hx]))

/-- `max` of a nonempty all-`some` list with a common upper bound. -/
theorem py2maxList_bounded (l : List (Option Int)) (ub : Int)
    (hne : l ≠ []) (h : ∀ x ∈ l, ∃ v, x = some v ∧ v ≤ ub) :
    ∃ m, py2maxList l = some m ∧ m ≤ ub := by
  cases l with
  | nil => exact absurd rfl hne
  | cons x0 t =>
    obtain ⟨v0, rfl, hv0⟩ := h x0 (by simp)
    exact py2max_foldl_bounded t ub v0 hv0 (fun x hx => h x (by simp [hx]))

/-- The index list of a plain forward slice `slice(s, t)` on a sequence of
length `n`, for `0 ≤ s ≤ t ≤ n`: exactly `[s, t)`. -/
theorem sliceElems_forward (s t n : Nat) (hst : s ≤ t) (htn : t ≤ n) :
    sliceElems (some (s : Int)) (some (t : Int)) none n =
      (List.range (t - s)).map fun j : Nat => (s : Int) + (j : Int) := by
  have h5 : ¬((s : Int) < 0) := by omega
  have h6 : ¬((t : Int) < 0) := by omega
  simp only [sliceElems, Option.getD,
    if_neg (show ¬((1 : Int) < 0) by omega),
    if_pos (show ((0 : Int) < 1) by omega), if_neg h5, if_neg h6]
  rw [show (s : Int) ⊓ (n : Int) = s by omega,
    show (t : Int) ⊓ (n : Int) = t by omega]
  have hlen : (if (s : Int) < (t : Int) then
      ((t : Int) - (s : Int) - 1) / 1 + 1 else 0).toNat = t - s := by
    rw [Int.ediv_one]
    split <;> omega
  rw [hlen]
  apply List.map_congr_left
  intro j _
  omega

/-- Membership of `i` in the indices of `slice(s, t)`. -/
theorem sliceElems_contains (s t n i : Nat) (hst : s ≤ t) (htn : t ≤ n) :
    (sliceElems (some (s : Int)) (some (t : Int)) none n).contains
      (i : Int) = (decide (s ≤ i) && decide (i < t)) := by
  rw [sliceElems_forward s t n hst htn]
  have hmem : ((i : Int) ∈ (List.range (t - s)).map
      (fun j : Nat => (s : Int) + (j : Int))) ↔ (s ≤ i ∧ i < t) := by
    simp only [List.mem_map, List.mem_range]
    constructor
    · rintro ⟨j, hj, hij⟩
      omega
    · rintro ⟨h1, h2⟩
      exact ⟨i - s, by omega, by omega⟩
  rcases Decidable.em (s ≤ i ∧ i < t) with h | h
  · have := hmem.mpr h
    simp only [List.contains]
    rw [List.elem_eq_true_of_mem this]
    simp [h.1, h.2]
  · have hnm : (i : Int) ∉ (List.range (t - s)).map
        (fun j : Nat => (s : Int) + (j : Int)) := fun hx => h (hmem.mp hx)
    have hc : ((List.range (t - s)).map
        (fun j : Nat => (s : Int) + (j : Int))).contains
        (i : Int) = false := by
      rw [← Bool.not_eq_true]
      intro hx
      rw [List.contains] at hx
      exact hnm (List.mem_of_elem_eq_true hx)
    rw [hc]
    rcases Decidable.em (s ≤ i) with h1 | h1 <;>
      rcases Decidable.em (i < t) with h2 | h2 <;> simp_all

/-- Marking of a normalised run list on the workspace: plain membership. -/
theorem npMark_runs (rs : List (Nat × Nat)) (lo e n : Nat) (i : Nat)
    (hn : runsNorm lo e rs = true) (hen : e ≤ n) :
    npMark (rs.map natRunSlice) n i = runsMark rs i := by
  have hb := runsNorm_bounds rs lo e hn
  clear hn
  induction rs with
  | nil => rfl
  | cons r rt ih =>
    obtain ⟨_, h2, h3⟩ := hb r (by simp)
    simp only [npMark, runsMark, List.map_cons, List.any_cons] at *
    congr 1
    · simp only [natRunSlice, intSlice]
      exact sliceElems_contains r.1 r.2 n i (by omega) (by omega)
    · exact ih (fun x hx => hb x (by simp [hx]))

/-- The absolute-index form of a clump scan over a window starting at `b`. -/
theorem clumpsAux_shift (q : Nat → Bool) (b : Nat) :
    ∀ (fuel i : Nat) (cur : Option Nat),
      clumpsAux q (b + i) (cur.map (b + ·)) fuel =
        (clumpsAux (fun x => q (b + x)) i cur fuel).map
          (fun r => (b + r.1, b + r.2)) := by
  intro fuel
  induction fuel with
  | zero =>
    intro i cur
    cases cur <;> rfl
  | succ f ih =>
    intro i cur
    have harith : b + i + 1 = b + (i + 1) := by omega
    by_cases hq : q (b + i) = true
    · simp only [clumpsAux, hq, if_true]
      have hcur : (some ((cur.map (b + ·)).getD (b + i))) =
          (some (cur.getD i)).map (b + ·) := by
        cases cur <;> rfl
      rw [hcur, harith]
      exact ih (i + 1) (some (cur.getD i))
    · have hq' : q (b + i) = false := by simpa using hq
      simp only [clumpsAux, hq', Bool.false_eq_true, if_false]
      cases cur with
      | none =>
        rw [harith]
        exact ih (i + 1) none
      | some s =>
        simp only [Option.map_some', List.map_cons]
        have hih := ih (i + 1) none
        rw [Option.map_none'] at hih
        rw [harith, hih]

/-- `List.getD` of a mapped range. -/
theorem getD_map_range (f : Nat → Bool) (n j : Nat) (hj : j < n) :
    ((List.range n).map f).getD j false = f j := by
  rw [List.getD_eq_getElem?_getD]
  rw [List.getElem?_map]
  rw [List.getElem?_range hj]
  rfl

/-- `shift_slices` on clump output: all runs are nondegenerate, so the
shift drops nothing and just translates both bounds. -/
theorem shift_slices_runs (rr : List (Nat × Nat)) (b : Nat)
    (hw : ∀ r ∈ rr, r.1 < r.2) :
    shift_slices (rr.map natRunSlice) (b : Int) =
      (rr.map (fun r => (b + r.1, b + r.2))).map natRunSlice := by
  rcases Nat.eq_zero_or_pos b with rfl | hb
  · simp only [shift_slices, Nat.cast_zero, if_true]
    rw [List.map_map]
    apply List.map_congr_left
    intro r _
    simp only [Function.comp, natRunSlice, intSlice, Nat.zero_add]
  · rw [shift_slices, if_neg (by omega)]
    induction rr with
    | nil => rfl
    | cons r rt ih =>
      simp only [List.map_cons, List.filterMap_cons]
      have hr := hw r (by simp)
      have hsh : shift_slice (natRunSlice r) (b : Int) =
          some (natRunSlice (b + r.1, b + r.2)) := by
        simp only [shift_slice, natRunSlice, intSlice, Option.map_some']
        rw [if_neg (by omega : ¬((b : Nat) : Int) = 0)]
        rw [if_pos (by omega :
          (1 : Int) ≤ ((r.2 : Int) + b) - ((r.1 : Int) + b))]
        simp only [Option.some.injEq, PySlice.mk.injEq]
        refine ⟨?_, ?_, trivial⟩ <;> omega
      rw [hsh, ih (fun x hx => hw x (by simp [hx]))]

/-- Characterisation of `slices_not` on a normalised slice list fully
inside `[b, e)`: it computes the maximal unmarked runs of `[b, e)`. -/
theorem slices_not_norm (rs : List (Nat × Nat)) (b e : Nat)
    (hne : rs ≠ []) (hn : runsNorm b e rs = true) :
    slices_not (rs.map natRunSlice) (some (b : Int)) (some (e : Int)) =
      .ok ((clumps (fun i => !(runsMark rs i)) b e).map natRunSlice) := by
  have hb := runsNorm_bounds rs b e hn
  have hbe : b < e := by
    cases rs with
    | nil => exact absurd rfl hne
    | cons r rt =>
      have := hb r (by simp)
      omega
  have hstarts : ∃ m, py2minList ((rs.map natRunSlice).map (·.start)) =
      some m ∧ (b : Int) ≤ m := by
    apply py2minList_bounded _ (b : Int) (by simp [hne])
    intro x hx
    simp only [List.map_map, List.mem_map] at hx
    obtain ⟨r, hr, rfl⟩ := hx
    exact ⟨r.1, rfl, by have := hb r hr; omega⟩
  have hstops : ∃ m, py2minList ((rs.map natRunSlice).map (·.stop)) =
      some m ∧ (b : Int) ≤ m := by
    apply py2minList_bounded _ (b : Int) (by simp [hne])
    intro x hx
    simp only [List.map_map, List.mem_map] at hx
    obtain ⟨r, hr, rfl⟩ := hx
    exact ⟨r.2, rfl, by have := hb r hr; omega⟩
  have hstarts' : ∃ m, py2maxList ((rs.map natRunSlice).map (·.start)) =
      some m ∧ m ≤ (e : Int) := by
    apply py2maxList_bounded _ (e : Int) (by simp [hne])
    intro x hx
    simp only [List.map_map, List.mem_map] at hx
    obtain ⟨r, hr, rfl⟩ := hx
    exact ⟨r.1, rfl, by have := hb r hr; omega⟩
  have hstops' : ∃ m, py2maxList ((rs.map natRunSlice).map (·.stop)) =
      some m ∧ m ≤ (e : Int) := by
    apply py2maxList_bounded _ (e : Int) (by simp [hne])
    intro x hx
    simp only [List.map_map, List.mem_map] at hx
    obtain ⟨r, hr, rfl⟩ := hx
    exact ⟨r.2, rfl, by have := hb r hr; omega⟩
  obtain ⟨m1, hm1, hm1b⟩ := hstarts
  obtain ⟨m2, hm2, hm2b⟩ := hstops
  obtain ⟨M1, hM1, hM1e⟩ := hstarts'
  obtain ⟨M2, hM2, hM2e⟩ := hstops'
  have hfoldnone : ∀ (t : List (Option Int)), (∀ x ∈ t, x = none) →
      t.foldl py2max none = none := by
    intro t
    induction t with
    | nil => intro _; rfl
    | cons y yt ihy =>
      intro hy
      have h0 : y = none := hy y (by simp)
      subst h0
      simp only [List.foldl_cons]
      exact ihy (fun x hx => hy x (by simp [hx]))
  have hsteps : py2maxList ((rs.map natRunSlice).map (·.step)) = none := by
    cases rs with
    | nil => exact absurd rfl hne
    | cons r rt =>
      simp only [List.map_cons, natRunSlice, intSlice, py2maxList]
      exact hfoldnone _ (by
        intro x hx
        simp only [List.map_map, List.mem_map] at hx
        obtain ⟨q, _, rfl⟩ := hx
        rfl)
  have hnostep0 : (rs.map natRunSlice).any (fun s => s.step = some 0) =
      false := by
    rw [List.any_eq_false]
    intro r hr
    simp only [List.mem_map] at hr
    obtain ⟨q, _, rfl⟩ := hr
    simp [natRunSlice, intSlice]
  have hempty : (rs.map natRunSlice).isEmpty = false := by
    cases rs with
    | nil => exact absurd rfl hne
    | cons r rt => rfl
  have hsnStart : snStart (rs.map natRunSlice) (some (b : Int)) =
      (b : Int) := by
    simp only [snStart, hm1, hm2]
    rw [if_neg (by simp : ¬(some m2 = (none : Option Int)))]
    rw [py2min_some]
    simp only [notBeginAt, py2lt, decide_eq_true_eq]
    split
    · rfl
    · rw [Option.getD_some]
      omega
  have hsnEnd : snEnd (rs.map natRunSlice) (some (e : Int)) =
      some (e : Int) := by
    simp only [snEnd, hM1, hM2, py2max_some]
    simp only [notEndAt, py2lt, decide_eq_true_eq]
    split
    · rfl
    · congr 1
      omega
  rw [slices_not, if_neg (by simp [hempty] : ¬(rs.map natRunSlice).isEmpty = true)]
  rw [hsteps]
  rw [if_neg (by simp [py2lt] : ¬py2lt (some 1) none = true)]
  rw [hsnStart, hsnEnd]
  simp only [snRasterize]
  rw [if_neg (by omega : ¬(e : Int) < 0)]
  rw [hnostep0]
  rw [if_neg (by simp : ¬(false = true))]
  have htonat : ((e : Int)).toNat = e := Int.toNat_ofNat e
  rw [htonat]
  rw [sliceElems_forward b e e (by omega) (Nat.le_refl _)]
  have hwindow : ((List.range (e - b)).map
      (fun j : Nat => (b : Int) + (j : Int))).map
      (fun j => npMark (rs.map natRunSlice) e j.toNat) =
      (List.range (e - b)).map fun j => runsMark rs (b + j) := by
    rw [List.map_map]
    apply List.map_congr_left
    intro j hj
    simp only [Function.comp]
    have ht : ((b : Int) + (j : Int)).toNat = b + j := by omega
    rw [ht]
    exact npMark_runs rs b e e (b + j) hn (Nat.le_refl _)
  rw [hwindow]
  have hmapmap : ((List.range (e - b)).map
      (fun j => runsMark rs (b + j))).map (!·) =
      (List.range (e - b)).map fun j => !(runsMark rs (b + j)) :=
    List.map_map _ _ _
  rw [hmapmap]
  rw [npClumpTrue]
  have hlen2 : ((List.range (e - b)).map
      fun j => !(runsMark rs (b + j))).length = e - b := by
    simp
  rw [hlen2]
  have hgetd : clumps (fun i => ((List.range (e - b)).map
      (fun j => !(runsMark rs (b + j)))).getD i false) 0 (e - b) =
      clumps (fun i => !(runsMark rs (b + i))) 0 (e - b) := by
    apply clumpsAux_congr
    intro j hj hj'
    exact getD_map_range (fun j => !(runsMark rs (b + j))) (e - b) j
      (by omega)
  rw [hgetd]
  have hshift := clumpsAux_shift (fun i => !(runsMark rs i)) b (e - b) 0 none
  simp only [Option.map_none', Nat.add_zero] at hshift
  have hnorm0 := clumpsAux_norm (fun i => !(runsMark rs (b + i))) (e - b) 0
    none 0 (Nat.le_refl _)
  have hwidths : ∀ r ∈ clumpsAux (fun i => !(runsMark rs (b + i))) 0 none
      (e - b), r.1 < r.2 := by
    intro r hr
    have := runsNorm_bounds _ 0 (0 + (e - b)) hnorm0 r hr
    omega
  have hclump0 : clumps (fun i => !(runsMark rs (b + i))) 0 (e - b) =
      clumpsAux (fun i => !(runsMark rs (b + i))) 0 none (e - b) := by
    rw [clumps, Nat.sub_zero]
  have hclumpb : clumps (fun i => !(runsMark rs i)) b e =
      clumpsAux (fun i => !(runsMark rs i)) b none (e - b) := rfl
  rw [hclump0, hclumpb, hshift]
  have hfun : (fun (r : Nat × Nat) => intSlice (r.1 : Int) (r.2 : Int)) =
      natRunSlice := rfl
  rw [hfun, shift_slices_runs _ b hwidths]

/-- A scan over a region where the predicate is everywhere false yields no
runs. -/
theorem clumps_false (p : Nat → Bool) (s e : Nat)
    (h : ∀ j, s ≤ j → j < e → p j = false) : clumps p s e = [] := by
  rw [clumps, ← Nat.add_zero (e - s)]
  rw [clumpsAux_false_skip p (e - s) s 0 (fun j hj hj' => h j hj (by omega))]
  rfl

/-- `slices_not` of the degenerate single empty interval `[b, b)` within
`[b, b)`: an empty workspace window, hence no runs. -/
theorem slices_not_self_empty (b : Nat) :
    slices_not [natRunSlice (b, b)] (some (b : Int)) (some (b : Int)) =
      .ok [] := by
  have hsnStart : snStart [natRunSlice (b, b)] (some (b : Int)) =
      (b : Int) := by
    simp only [snStart, natRunSlice, intSlice, py2minList, List.map_cons,
      List.map_nil, List.foldl_nil]
    rw [if_neg (by simp : ¬(some (b : Int) = (none : Option Int)))]
    rw [py2min_some]
    simp only [notBeginAt, py2lt, decide_eq_true_eq]
    rw [if_neg (by omega)]
    rw [Option.getD_some]
    omega
  have hsnEnd : snEnd [natRunSlice (b, b)] (some (b : Int)) =
      some (b : Int) := by
    simp only [snEnd, natRunSlice, intSlice, py2maxList, List.map_cons,
      List.map_nil, List.foldl_nil, py2max_some]
    simp only [notEndAt, py2lt, decide_eq_true_eq]
    rw [if_neg (by omega)]
    congr 1
    omega
  rw [slices_not, if_neg (by simp [natRunSlice, intSlice] :
    ¬([natRunSlice (b, b)].isEmpty = true))]
  rw [show py2maxList ([natRunSlice (b, b)].map (·.step)) =
    (none : Option Int) from rfl]
  rw [if_neg (by simp [py2lt] : ¬py2lt (some 1) none = true)]
  rw [hsnStart, hsnEnd]
  simp only [snRasterize]
  rw [if_neg (by omega : ¬(b : Int) < 0)]
  rw [show ([natRunSlice (b, b)].any (fun s => s.step = some 0)) = false
    from rfl]
  rw [if_neg (by simp : ¬(false = true))]
  rw [Int.toNat_ofNat]
  rw [sliceElems_forward b b b (Nat.le_refl _) (Nat.le_refl _)]
  simp only [Nat.sub_self, List.range_zero, List.map_nil]
  rw [show npClumpTrue ([] : List Bool) = ([] : List PySlice) from rfl,
    shift_slices]
  split
  · rfl
  · rfl

/-! ### The small-gap merge and the length filter on concrete forward
slices -/

/-- One-step unfolding of `pairsSorted` on two or more elements. -/
theorem pairsSorted_cons2 (p q : Int × Int) (r : List (Int × Int)) :
    pairsSorted (p :: q :: r) =
      (decide (p.1 ≤ p.2) && decide (p.2 ≤ q.1) && pairsSorted (q :: r)) :=
  rfl

/-- One-step unfolding of `pairsGaps` on two or more elements. -/
theorem pairsGaps_cons2 (lim : Rat) (p q : Int × Int)
    (r : List (Int × Int)) :
    pairsGaps lim (p :: q :: r) =
      (decide (lim ≤ ((q.1 - p.2 : Int) : Rat)) && pairsGaps lim (q :: r)) :=
  rfl

/-- `mergeLoop` on mapped pairs is the pair-level merge. -/
theorem mergeLoop_pairs (lim : Rat) :
    ∀ (l : List (Int × Int)) (p : Int × Int),
    mergeLoop lim (intPairSlice p) (l.map intPairSlice) =
      .ok ((pairMerge lim p l).map intPairSlice)
  | [], p => rfl
  | q :: rest, p => by
    simp only [List.map_cons, mergeLoop, intPairSlice, pairMerge]
    by_cases hg : ((q.1 - p.2 : Int) : Rat) < lim
    · rw [if_pos hg, if_pos hg]
      exact mergeLoop_pairs lim rest (p.1, q.2)
    · rw [if_neg hg, if_neg hg]
      rw [show mergeLoop lim ⟨some q.1, some q.2, none⟩
          (rest.map intPairSlice) =
          .ok ((pairMerge lim q rest).map intPairSlice) from
        mergeLoop_pairs lim rest q]
      rfl

/-- `slices_remove_small_gaps` on mapped pairs is the pair-level merge. -/
theorem slices_remove_small_gaps_pairs (ps : List (Int × Int))
    (tl hz : Rat) :
    slices_remove_small_gaps (some (ps.map intPairSlice)) tl hz =
      .ok (some ((pairGapsMerge (tl * hz) ps).map intPairSlice)) := by
  simp only [slices_remove_small_gaps, pairGapsMerge, List.length_map]
  by_cases hl : ps.length < 2
  · rw [if_pos hl, if_pos hl]
  · rw [if_neg hl, if_neg hl]
    rcases ps with _ | ⟨p, t⟩
    · simp at hl
    · simp only [List.map_cons]
      rw [mergeLoop_pairs (tl * hz) t p]
      rfl

/-- The filter accumulator loop of `slices_remove_small_slices` on mapped
pairs. -/
theorem filterAuxM_pairs (c : Rat) :
    ∀ (l : List (Int × Int)) (acc : List PySlice),
    List.filterAuxM (removeSliceTest c) (l.map intPairSlice) acc =
      .ok (((l.filter (pairKeep c)).map intPairSlice).reverse ++ acc)
  | [], acc => rfl
  | p :: l, acc => by
    have hstep : List.filterAuxM (removeSliceTest c)
        ((p :: l).map intPairSlice) acc =
        List.filterAuxM (removeSliceTest c) (l.map intPairSlice)
          (bif pairKeep c p then intPairSlice p :: acc else acc) := rfl
    rw [hstep]
    by_cases hk : pairKeep c p = true
    · rw [hk, cond_true]
      rw [filterAuxM_pairs c l (intPairSlice p :: acc)]
      simp [List.filter_cons, hk]
    · rw [Bool.not_eq_true] at hk
      rw [hk, cond_false]
      rw [filterAuxM_pairs c l acc]
      simp [List.filter_cons, hk]

/-- `slices_remove_small_slices` on mapped pairs is the pair-level length
filter. -/
theorem slices_remove_small_slices_pairs (ps : List (Int × Int))
    (tl hz : Rat) (count : Option Int) :
    slices_remove_small_slices (some (ps.map intPairSlice)) tl hz count =
      .ok (some ((ps.filter (pairKeep (removeLimit tl hz count))).map
        intPairSlice)) := by
  have h1 : slices_remove_small_slices (some (ps.map intPairSlice)) tl hz
      count =
      ((List.reverse <$> List.filterAuxM
          (removeSliceTest (removeLimit tl hz count))
          (ps.map intPairSlice) []) >>= fun r => Except.ok (some r)) := rfl
  rw [h1, filterAuxM_pairs (removeLimit tl hz count) ps []]
  simp [Functor.map, Except.map, Bind.bind, Except.bind]

/-- The merge output: nonempty, keeps the first start, stays sorted, and
all gaps are at least `lim`. -/
theorem pairMerge_props (lim : Rat) :
    ∀ (l : List (Int × Int)) (p : Int × Int),
    pairsSorted (p :: l) = true →
    pairMerge lim p l ≠ [] ∧
    ((pairMerge lim p l).headD (0, 0)).1 = p.1 ∧
    pairsSorted (pairMerge lim p l) = true ∧
    pairsGaps lim (pairMerge lim p l) = true
  | [], p, h => by
    refine ⟨by simp [pairMerge], by simp [pairMerge], ?_, by
      simp [pairMerge, pairsGaps]⟩
    simpa [pairMerge, pairsSorted] using h
  | q :: rest, p, h => by
    rw [pairsSorted_cons2] at h
    simp only [Bool.and_eq_true, decide_eq_true_eq] at h
    obtain ⟨⟨hpf, hpq⟩, hqrest⟩ := h
    simp only [pairMerge]
    by_cases hg : ((q.1 - p.2 : Int) : Rat) < lim
    · rw [if_pos hg]
      have hsorted' : pairsSorted ((p.1, q.2) :: rest) = true := by
        rcases rest with _ | ⟨r, rest'⟩
        · have hq : q.1 ≤ q.2 := by simpa [pairsSorted] using hqrest
          simp [pairsSorted]
          omega
        · rw [pairsSorted_cons2] at hqrest
          simp only [Bool.and_eq_true, decide_eq_true_eq] at hqrest
          obtain ⟨⟨hqf, hqr⟩, hrrest⟩ := hqrest
          rw [pairsSorted_cons2]
          simp only [Bool.and_eq_true, decide_eq_true_eq]
          exact ⟨⟨by omega, by omega⟩, hrrest⟩
      have ih := pairMerge_props lim rest (p.1, q.2) hsorted'
      exact ⟨ih.1, ih.2.1, ih.2.2⟩
    · rw [if_neg hg]
      have hge : lim ≤ ((q.1 - p.2 : Int) : Rat) := not_lt.mp hg
      have ih := pairMerge_props lim rest q hqrest
      obtain ⟨ihne, ihhead, ihsorted, ihgaps⟩ := ih
      rcases hout : pairMerge lim q rest with _ | ⟨h1, t1⟩
      · exact absurd hout ihne
      · rw [hout] at ihhead ihsorted ihgaps
        simp only [List.headD_cons] at ihhead
        refine ⟨by simp, by simp, ?_, ?_⟩
        · rw [pairsSorted_cons2]
          simp only [Bool.and_eq_true, decide_eq_true_eq]
          refine ⟨⟨hpf, ?_⟩, ihsorted⟩
          rw [ihhead]
          omega
        · rw [pairsGaps_cons2]
          simp only [Bool.and_eq_true, decide_eq_true_eq]
          refine ⟨?_, ihgaps⟩
          rw [ihhead]
          exact hge

/-- Filtering preserves sortedness and the gap lower bound (a removed
forward slice only widens the gap around it). -/
theorem pairsFilter_chain_cons (keep : Int × Int → Bool) (lim : Rat) :
    ∀ (l : List (Int × Int)) (p : Int × Int),
    pairsSorted (p :: l) = true → pairsGaps lim (p :: l) = true →
    pairsSorted (p :: l.filter keep) = true ∧
    pairsGaps lim (p :: l.filter keep) = true
  | [], p, hs, hg => by simpa using And.intro hs hg
  | q :: rest, p, hs, hg => by
    rw [pairsSorted_cons2] at hs
    simp only [Bool.and_eq_true, decide_eq_true_eq] at hs
    obtain ⟨⟨hpf, hpq⟩, hqrest⟩ := hs
    rw [pairsGaps_cons2] at hg
    simp only [Bool.and_eq_true, decide_eq_true_eq] at hg
    obtain ⟨hgpq, hgqrest⟩ := hg
    by_cases hk : keep q = true
    · have ih := pairsFilter_chain_cons keep lim rest q hqrest hgqrest
      rw [List.filter_cons, if_pos hk]
      refine ⟨?_, ?_⟩
      · rw [pairsSorted_cons2]
        simp only [Bool.and_eq_true, decide_eq_true_eq]
        exact ⟨⟨hpf, hpq⟩, ih.1⟩
      · rw [pairsGaps_cons2]
        simp only [Bool.and_eq_true, decide_eq_true_eq]
        exact ⟨hgpq, ih.2⟩
    · rw [Bool.not_eq_true] at hk
      rw [List.filter_cons, if_neg (by simp [hk])]
      rcases rest with _ | ⟨r, rest'⟩
      · refine ⟨?_, rfl⟩
        simpa [pairsSorted] using hpf
      · rw [pairsSorted_cons2] at hqrest
        simp only [Bool.and_eq_true, decide_eq_true_eq] at hqrest
        obtain ⟨⟨hqf, hqr⟩, hrrest⟩ := hqrest
        rw [pairsGaps_cons2] at hgqrest
        simp only [Bool.and_eq_true, decide_eq_true_eq] at hgqrest
        obtain ⟨hgqr, hgrrest⟩ := hgqrest
        have hs2 : pairsSorted (p :: r :: rest') = true := by
          rw [pairsSorted_cons2]
          simp only [Bool.and_eq_true, decide_eq_true_eq]
          exact ⟨⟨hpf, by omega⟩, hrrest⟩
        have hg2 : pairsGaps lim (p :: r :: rest') = true := by
          rw [pairsGaps_cons2]
          simp only [Bool.and_eq_true, decide_eq_true_eq]
          refine ⟨?_, hgrrest⟩
          have hmono : ((q.1 - p.2 : Int) : Rat) ≤
              ((r.1 - p.2 : Int) : Rat) := by
            have h' : (q.1 - p.2 : Int) ≤ (r.1 - p.2 : Int) := by omega
            exact_mod_cast h'
          exact le_trans hgpq hmono
        exact pairsFilter_chain_cons keep lim (r :: rest') p hs2 hg2

/-- Sortedness restricts to the tail. -/
theorem pairsSorted_tail (p : Int × Int) (l : List (Int × Int))
    (h : pairsSorted (p :: l) = true) : pairsSorted l = true := by
  rcases l with _ | ⟨q, t⟩
  · rfl
  · rw [pairsSorted_cons2] at h
    simp only [Bool.and_eq_true] at h
    exact h.2

/-- The gap bound restricts to the tail. -/
theorem pairsGaps_tail (lim : Rat) (p : Int × Int) (l : List (Int × Int))
    (h : pairsGaps lim (p :: l) = true) : pairsGaps lim l = true := by
  rcases l with _ | ⟨q, t⟩
  · rfl
  · rw [pairsGaps_cons2] at h
    simp only [Bool.and_eq_true] at h
    exact h.2

/-- Filtering preserves sortedness and the gap lower bound. -/
theorem pairsFilter_chain (keep : Int × Int → Bool) (lim : Rat) :
    ∀ (l : List (Int × Int)),
    pairsSorted l = true → pairsGaps lim l = true →
    pairsSorted (l.filter keep) = true ∧
    pairsGaps lim (l.filter keep) = true
  | [], _, _ => ⟨rfl, rfl⟩
  | p :: t, hs, hg => by
    rw [List.filter_cons]
    by_cases hk : keep p = true
    · rw [if_pos hk]
      exact pairsFilter_chain_cons keep lim t p hs hg
    · rw [Bool.not_eq_true] at hk
      rw [if_neg (by simp [hk])]
      exact pairsFilter_chain keep lim t (pairsSorted_tail p t hs)
        (pairsGaps_tail lim p t hg)

/-- On a chain whose gaps already meet the limit, the merge loop changes
nothing. -/
theorem pairMerge_id (lim : Rat) :
    ∀ (l : List (Int × Int)) (p : Int × Int),
    pairsGaps lim (p :: l) = true →
    pairMerge lim p l = p :: l
  | [], p, _ => rfl
  | q :: rest, p, hg => by
    rw [pairsGaps_cons2] at hg
    simp only [Bool.and_eq_true, decide_eq_true_eq] at hg
    obtain ⟨hgpq, hgqrest⟩ := hg
    simp only [pairMerge]
    rw [if_neg (not_lt.mpr hgpq)]
    rw [pairMerge_id lim rest q hgqrest]

/-- Every element surviving a filter satisfies the filter's test. -/
theorem pairsLens_filter (c : Rat) (l : List (Int × Int)) :
    pairsLens c (l.filter (pairKeep c)) = true := by
  induction l with
  | nil => rfl
  | cons p t ih =>
    rw [List.filter_cons]
    by_cases hk : pairKeep c p = true
    · rw [if_pos hk]
      simpa [pairsLens, hk] using ih
    · rw [Bool.not_eq_true] at hk
      rw [if_neg (by simp [hk])]
      exact ih

/-- Filtering a list whose every element passes the test is the
identity. -/
theorem filter_of_pairsLens (c : Rat) (l : List (Int × Int))
    (h : pairsLens c l = true) : l.filter (pairKeep c) = l := by
  induction l with
  | nil => rfl
  | cons p t ih =>
    have h' : pairKeep c p = true ∧ pairsLens c t = true := by
      simpa [pairsLens] using h
    rw [List.filter_cons, if_pos h'.1, ih h'.2]

/-- The pair-level small-gap merge keeps sortedness and establishes the
gap bound. -/
theorem pairGapsMerge_props (lim : Rat) (ps : List (Int × Int))
    (hs : pairsSorted ps = true) :
    pairsSorted (pairGapsMerge lim ps) = true ∧
    pairsGaps lim (pairGapsMerge lim ps) = true := by
  unfold pairGapsMerge
  by_cases hl : ps.length < 2
  · rw [if_pos hl]
    refine ⟨hs, ?_⟩
    rcases ps with _ | ⟨p, t⟩
    · rfl
    · rcases t with _ | ⟨q, t'⟩
      · rfl
      · exact absurd hl (by simp)
  · rw [if_neg hl]
    rcases ps with _ | ⟨p, t⟩
    · simp at hl
    · have h := pairMerge_props lim t p hs
      exact ⟨h.2.2.1, h.2.2.2⟩

/-- The pair-level small-gap merge is the identity once the gap bound
holds. -/
theorem pairGapsMerge_id (lim : Rat) (ps : List (Int × Int))
    (hg : pairsGaps lim ps = true) : pairGapsMerge lim ps = ps := by
  unfold pairGapsMerge
  by_cases hl : ps.length < 2
  · rw [if_pos hl]
  · rw [if_neg hl]
    rcases ps with _ | ⟨p, t⟩
    · rfl
    · exact pairMerge_id lim t p hg

/-! ### Frame facts about `repair_mask` -/

/-- Overwriting a section that fits inside the array keeps the length. -/
theorem setRange_length (arr : MArr) (s : Nat) (vals : MArr)
    (h : s + vals.length ≤ arr.length) :
    (setRange arr s vals).length = arr.length := by
  simp [setRange]
  omega

/-- A repaired section keeps the array length. -/
theorem repairSection_length (repair_samples : Option Rat)
    (rde ex zim : Bool) (repair_above : Option Rat) (n : Nat) (arr : MArr)
    (sec : Nat × Nat) (hse : sec.1 ≤ sec.2) (hen : sec.2 ≤ n)
    (harr : arr.length = n) (out : MArr)
    (h : repairSection repair_samples rde ex zim repair_above n arr sec =
      .ok out) :
    out.length = n := by
  have hsr : ∀ (vals : MArr), vals.length = sec.2 - sec.1 →
      (setRange arr sec.1 vals).length = n := by
    intro vals hv
    rw [setRange_length arr sec.1 vals (by omega), harr]
  unfold repairSection at h
  split at h
  · split at h
    · simp at h
    · injection h with h'
      rw [← h']
      exact harr
  · split at h
    · split at h
      · split at h
        · injection h with h'
          rw [← h']
          exact hsr _ (by simp)
        · injection h with h'
          rw [← h']
          exact hsr _ (by simp)
      · injection h with h'
        rw [← h']
        exact harr
    · split at h
      · split at h
        · split at h
          · injection h with h'
            rw [← h']
            exact hsr _ (by simp)
          · injection h with h'
            rw [← h']
            exact hsr _ (by simp)
        · injection h with h'
          rw [← h']
          exact harr
      · split at h
        · injection h with h'
          rw [← h']
          exact hsr _ (by
            simp only [interpFill, List.length_map, List.length_range])
        · injection h with h'
          rw [← h']
          exact harr

/-- The section-repair fold keeps the array length. -/
theorem repair_foldl_length (repair_samples : Option Rat)
    (rde ex zim : Bool) (repair_above : Option Rat) (n : Nat) :
    ∀ (secs : List (Nat × Nat)) (arr : MArr),
    (∀ sec ∈ secs, sec.1 ≤ sec.2 ∧ sec.2 ≤ n) → arr.length = n →
    ∀ out,
    secs.foldlM (repairSection repair_samples rde ex zim repair_above n)
      arr = .ok out →
    out.length = n
  | [], arr, _, harr, out, h => by
    have h2 : (Except.ok arr : Except String MArr) = .ok out := h
    injection h2 with h'
    rw [← h']
    exact harr
  | sec :: t, arr, hb, harr, out, h => by
    rcases hf : repairSection repair_samples rde ex zim repair_above n arr
        sec with err | arr'
    · have h2 : (do
          let a ← repairSection repair_samples rde ex zim repair_above n
            arr sec
          t.foldlM (repairSection repair_samples rde ex zim repair_above n)
            a) = .ok out := h
      rw [hf] at h2
      simp [Bind.bind, Except.bind] at h2
    · have h2 : (do
          let a ← repairSection repair_samples rde ex zim repair_above n
            arr sec
          t.foldlM (repairSection repair_samples rde ex zim repair_above n)
            a) = .ok out := h
      rw [hf] at h2
      have h3 : t.foldlM
          (repairSection repair_samples rde ex zim repair_above n) arr' =
          .ok out := h2
      have hlen' := repairSection_length repair_samples rde ex zim
        repair_above n arr sec (hb sec (by simp)).1 (hb sec (by simp)).2
        harr arr' hf
      exact repair_foldl_length repair_samples rde ex zim repair_above n t
        arr' (fun s hs => hb s (by simp [hs])) hlen' out h3

/-- A fully valid array has as many unmasked samples as elements. -/
theorem maCount_all_valid :
    ∀ (l : MArr), (∀ x ∈ l, x.isSome = true) → maCount l = l.length
  | [], _ => rfl
  | a :: t, h => by
    have ha := h a (by simp)
    have ih := maCount_all_valid t (fun x hx => h x (by simp [hx]))
    simp only [maCount, List.filter_cons, ha, if_true, List.length_cons]
    rw [show (List.filter Option.isSome t).length = maCount t from rfl, ih]

/-- Reading inside a fully valid array never yields a masked sample. -/
theorem getD_isNone_false :
    ∀ (l : MArr) (j : Nat), j < l.length →
    (∀ x ∈ l, x.isSome = true) → (l.getD j none).isNone = false
  | [], j, hj, _ => absurd hj (by simp)
  | a :: t, 0, _, hall => by
    have ha := hall a (by simp)
    rcases a with _ | v
    · simp at ha
    · rfl
  | a :: t, j + 1, hj, hall => by
    have ht : (t.getD j none).isNone = false :=
      getD_isNone_false t j (by simpa using hj)
        (fun x hx => hall x (by simp [hx]))
    simpa [List.getD_cons_succ] using ht

/-- `repair_mask` on a nonempty, fully valid array is the identity: there
is no masked section to repair. -/
theorem repair_mask_all_valid (array : MArr) (frequency : Rat)
    (repair_duration : Option Rat) (rde copy ex zim : Bool)
    (repair_above : Option Rat)
    (hall : ∀ x ∈ array, x.isSome = true) (hne : array ≠ []) :
    repair_mask array frequency repair_duration rde copy ex zim
      repair_above = .ok array := by
  have hc : maCount array ≠ 0 := by
    rw [maCount_all_valid array hall]
    simpa using hne
  have hclump : clumps (fun i => (array.getD i none).isNone) 0
      array.length = [] :=
    clumps_false _ 0 array.length
      (fun j _ hj' => getD_isNone_false array j hj' hall)
  unfold repair_mask
  rw [if_neg hc]
  show (clumps (fun i => (array.getD i none).isNone) 0
      array.length).foldlM
    (repairSection (repairSamples repair_duration frequency) rde ex zim
      repair_above array.length) array = .ok array
  rw [hclump]
  rfl

/-! ### `shift_slice` on step-free slices -/

/-- `shift_slice` translates both bounds whenever every pair of concrete
bounds spans at least one sample. -/
theorem shift_slice_bounds (a b : Option Int) (off : Int)
    (hab : ∀ x y, a = some x → b = some y → 1 ≤ y - x) :
    shift_slice ⟨a, b, none⟩ off =
      some ⟨a.map (· + off), b.map (· + off), none⟩ := by
  unfold shift_slice
  by_cases hoff : off = 0
  · rw [if_pos hoff]
    subst hoff
    rcases a with _ | x <;> rcases b with _ | y <;> simp
  · rw [if_neg hoff]
    rcases a with _ | x <;> rcases b with _ | y
    · rfl
    · rfl
    · rfl
    · simp only [Option.map_some']
      have h1 : (1 : Int) ≤ (y + off) - (x + off) := by
        have := hab x y rfl rfl
        omega
      rw [if_pos h1]

/-! ### Windows of fully valid data and the no-crossing scan -/

/-- In-range `getD` reads an element of the list. -/
theorem getD_mem_of_lt :
    ∀ (l : MArr) (k : Nat), k < l.length → l.getD k none ∈ l
  | [], k, hk => absurd hk (by simp)
  | a :: t, 0, _ => by simp [List.getD_cons_zero]
  | a :: t, k + 1, hk => by
    have h := getD_mem_of_lt t k (by simpa using hk)
    simp only [List.getD_cons_succ]
    exact List.mem_cons_of_mem a h

/-- `getD` commutes with an elementwise `Option.map`. -/
theorem getD_map_opt (g : Rat → Rat) :
    ∀ (l : MArr) (k : Nat),
    (l.map (Option.map g)).getD k none = Option.map g (l.getD k none)
  | [], k => by simp [List.getD]
  | a :: t, 0 => by simp [List.getD_cons_zero]
  | a :: t, k + 1 => by
    simp only [List.map_cons, List.getD_cons_succ]
    exact getD_map_opt g t k

/-- `getD` on the mask vector reads the sample's validity. -/
theorem getD_map_isSome :
    ∀ (l : MArr) (k : Nat), k < l.length →
    (l.map Option.isSome).getD k false = (l.getD k none).isSome
  | [], k, hk => absurd hk (by simp)
  | a :: t, 0, _ => by simp [List.getD_cons_zero]
  | a :: t, k + 1, hk => by
    simp only [List.map_cons, List.getD_cons_succ]
    exact getD_map_isSome t k (by simpa using hk)

/-- Reading every position of a list in order reproduces it. -/
theorem getD_range_eq :
    ∀ (l : MArr),
    (List.range l.length).map (fun j : Nat => l.getD j none) = l
  | [] => rfl
  | a :: t => by
    rw [List.length_cons, List.range_succ_eq_map, List.map_cons,
      List.map_map]
    congr 1
    have hfun : ((fun j : Nat => (a :: t).getD j none) ∘ Nat.succ) =
        (fun j : Nat => t.getD j none) := by
      funext j
      simp [List.getD_cons_succ]
    rw [hfun, getD_range_eq t]

/-- `getD` inside a mapped range evaluates the function. -/
theorem getD_map_range_opt (g : Nat → Option Rat) :
    ∀ (n j : Nat), j < n → ((List.range n).map g).getD j none = g j
  | 0, j, hj => absurd hj (by simp)
  | n + 1, 0, _ => by rw [List.range_succ_eq_map]; rfl
  | n + 1, j + 1, hj => by
    rw [List.range_succ_eq_map, List.map_cons, List.map_map,
      List.getD_cons_succ]
    have h := getD_map_range_opt (g ∘ Nat.succ) n j (by omega)
    simpa using h

/-- A forward slice with concrete in-range bounds reads the window
elementwise. -/
theorem pyGetSlice_forward (a : MArr) (s t : Nat) (hst : s ≤ t)
    (htn : t ≤ a.length) :
    pyGetSlice a (some (s : Int)) (some (t : Int)) none =
      (List.range (t - s)).map (fun j : Nat => a.getD (s + j) none) := by
  unfold pyGetSlice
  rw [sliceElems_forward s t a.length hst htn, List.map_map]
  apply List.map_congr_left
  intro j _
  show maGet a ((s : Int) + (j : Int)) = a.getD (s + j) none
  unfold maGet
  rw [if_neg (by omega), show ((s : Int) + (j : Int)).toNat = s + j by omega]

/-- The index run of a `[:t]` slice whose stop is past the end. -/
theorem sliceElems_upTo (t : Int) (n : Nat) (hnt : (n : Int) ≤ t) :
    sliceElems none (some t) none n =
      (List.range n).map fun j : Nat => (j : Int) := by
  have h6 : ¬(t < 0) := by omega
  simp only [sliceElems, Option.getD,
    if_neg (show ¬((1 : Int) < 0) by omega),
    if_pos (show ((0 : Int) < 1) by omega), if_neg h6]
  rw [show t ⊓ (n : Int) = (n : Int) by omega]
  have hlen : (if (0 : Int) < (n : Int) then
      ((n : Int) - 0 - 1) / 1 + 1 else 0).toNat = n := by
    rw [Int.ediv_one]
    split <;> omega
  rw [hlen]
  apply List.map_congr_left
  intro j _
  omega

/-- Slicing `[:t]` past the end of the array is the identity. -/
theorem pyGetSlice_upTo (a : MArr) (t : Int)
    (ht : (a.length : Int) ≤ t) :
    pyGetSlice a none (some t) none = a := by
  unfold pyGetSlice
  rw [sliceElems_upTo t a.length ht, List.map_map]
  have hfun : ∀ j ∈ List.range a.length,
      (maGet a ∘ fun j : Nat => (j : Int)) j = a.getD j none := by
    intro j hj
    show maGet a (j : Int) = a.getD j none
    unfold maGet
    rw [if_neg (by omega), show ((j : Nat) : Int).toNat = j by omega]
  rw [List.map_congr_left hfun, getD_range_eq]

/-- The valid-index scan of a fully valid list is the full index range. -/
theorem enumFrom_filterMap_all :
    ∀ (a : MArr) (k : Nat), (∀ x ∈ a, x.isSome = true) →
    ((List.enumFrom k a).filterMap fun iv =>
      if iv.2.isSome then some iv.1 else none) = List.range' k a.length
  | [], _, _ => rfl
  | x :: t, k, h => by
    rw [List.enumFrom_cons, List.filterMap_cons]
    rw [show (if (k, x).2.isSome then some (k, x).1 else none) = some k by
      rw [if_pos (h x (by simp))]]
    rw [enumFrom_filterMap_all t (k + 1) (fun y hy => h y (by simp [hy]))]
    rfl

/-- Folding the overwrite function is taking the last element. -/
theorem foldl_overwrite_range' :
    ∀ (m k : Nat), (List.range' (k + 1) m).foldl (fun _ x => x) k = k + m
  | 0, k => rfl
  | m + 1, k => by
    rw [List.range'_succ, List.foldl_cons]
    have h := foldl_overwrite_range' m (k + 1)
    rw [show k + 1 + 1 = k + 2 by omega] at h
    rw [h]
    omega

/-- `flatnotmasked_edges` of a nonempty fully valid array brackets the
whole array. -/
theorem maFlatnotmaskedEdges_all_valid (a : MArr)
    (h : ∀ x ∈ a, x.isSome = true) (hne : a ≠ []) :
    maFlatnotmaskedEdges a = some (0, a.length - 1) := by
  unfold maFlatnotmaskedEdges
  rw [show a.enum = List.enumFrom 0 a from rfl]
  rw [enumFrom_filterMap_all a 0 h]
  obtain ⟨m, hm⟩ : ∃ m, a.length = m + 1 := by
    rcases a with _ | ⟨x, t⟩
    · exact absurd rfl hne
    · exact ⟨t.length, by simp⟩
  rw [hm]
  rw [List.range'_succ]
  show some (0, (List.range' 1 m).foldl (fun _ x => x) 0) = some (0, m + 1 - 1)
  rw [show (1 : Nat) = 0 + 1 from rfl, foldl_overwrite_range' m 0]
  simp

/-- The unmasked clumps of a nonempty fully valid array: one full run. -/
theorem npClumpUnmasked_all_valid (a : MArr)
    (h : ∀ x ∈ a, x.isSome = true) (hne : a ≠ []) :
    npClumpUnmasked a = [intSlice 0 (a.length : Int)] := by
  unfold npClumpUnmasked npClumpTrue
  have hlen : (a.map Option.isSome).length = a.length := by simp
  rw [hlen]
  have h0 : 0 < a.length := by
    rcases a with _ | ⟨x, t⟩
    · exact absurd rfl hne
    · simp
  have hpred : ∀ j, 0 ≤ j → j < 0 + a.length →
      ((a.map Option.isSome).getD j false) = true := by
    intro j _ hj
    rw [getD_map_isSome a j (by omega)]
    exact h _ (getD_mem_of_lt a j (by omega))
  rw [clumps, Nat.sub_zero]
  rw [show a.length = a.length + 0 from rfl]
  rw [clumpsAux_true_run_none _ a.length 0 0 h0
    (fun j hj hj' => hpred j hj (by omega))]
  show [((0 : Nat), 0 + a.length)].map
    (fun r => intSlice (r.1 : Int) (r.2 : Int)) = _
  rw [show 0 + a.length = a.length by omega]
  rfl

/-- `last_valid_sample` of a nonempty fully valid array: its last
element. -/
theorem last_valid_sample_all_valid (a : MArr)
    (h : ∀ x ∈ a, x.isSome = true) (hne : a ≠ []) :
    last_valid_sample a none =
      (some ((a.length : Int) - 1), a.getD (a.length - 1) none) := by
  have h0 : 0 < a.length := by
    rcases a with _ | ⟨x, t⟩
    · exact absurd rfl hne
    · simp
  show (match (npClumpUnmasked (pyGetSlice a none
      (some ((a.length : Int) + 1)) none)).getLast? with
    | some c =>
      match c.stop with
      | some t => ((some (t - 1) : Option Int), maGet a (t - 1))
      | none => (none, none)
    | none => (none, none)) = _
  rw [pyGetSlice_upTo a ((a.length : Int) + 1) (by omega)]
  rw [npClumpUnmasked_all_valid a h hne]
  show (some ((a.length : Int) - 1), maGet a ((a.length : Int) - 1)) = _
  rw [show maGet a ((a.length : Int) - 1) = a.getD (a.length - 1) none by
    unfold maGet
    rw [if_neg (by omega),
      show ((a.length : Int) - 1).toNat = a.length - 1 by omega]]

/-- `maGet` reads an element of the array or misses. -/
theorem maGet_none_or_mem (a : MArr) (i : Int) :
    maGet a i = none ∨ maGet a i ∈ a := by
  unfold maGet
  split
  · exact Or.inl rfl
  · by_cases h : i.toNat < a.length
    · exact Or.inr (getD_mem_of_lt a i.toNat h)
    · left
      rw [List.getD_eq_getElem?_getD, List.getElem?_eq_none (by omega)]
      rfl

/-- A product test over samples strictly above the threshold is fully
masked. -/
theorem zipWith_filter_isSome_nil (f : Int → Int → Option Rat)
    (h : ∀ i j, f i j = none) :
    ∀ (la lb : List Int),
    (List.zipWith f la lb).filter Option.isSome = []
  | [], _ => rfl
  | _ :: _, [] => rfl
  | i :: la, j :: lb => by
    rw [List.zipWith_cons_cons, List.filter_cons, h i j]
    rw [if_neg (by simp)]
    exact zipWith_filter_isSome_nil f h la lb

/-- When every sample exceeds the threshold, every pairwise product test
is positive, hence masked. -/
theorem iavTest_above_empty (array : MArr) (threshold : Rat) (sl : QSlice)
    (hall : ∀ x ∈ array, ∃ v, x = some v ∧ threshold < v) :
    (iavTest array threshold sl).filter Option.isSome = [] := by
  have hval : ∀ (i : Int) (x : Rat), maGet array i = some x →
      threshold < x := by
    intro i x hmi
    have hxmem : (some x : Option Rat) ∈ array := by
      rcases maGet_none_or_mem array i with hn | hm
      · rw [hmi] at hn
        exact absurd hn (by simp)
      · rw [hmi] at hm
        exact hm
    obtain ⟨v, hv, hvth⟩ := hall _ hxmem
    injection hv with hv'
    rw [hv']
    exact hvth
  unfold iavTest
  apply zipWith_filter_isSome_nil
  intro i j
  rcases hmi : maGet array i with _ | x
  · rfl
  · show ((maGet array j).bind fun y =>
      if 0 < (x - threshold) * (y - threshold) then none
      else some ((x - threshold) * (y - threshold))) = none
    rcases hmj : maGet array j with _ | y
    · rfl
    · show (if 0 < (x - threshold) * (y - threshold) then none
        else some ((x - threshold) * (y - threshold))) = none
      have hx := hval i x hmi
      have hy := hval j y hmj
      rw [if_pos (mul_pos (by linarith) (by linarith))]

/-- Reduction of `Except` binds on settled values. -/
theorem exceptBind_ok {α β : Type} (v : α) (k : α → Except String β) :
    Bind.bind (Except.ok v) k = k v := rfl

/-- The effective step of a slice whose step is `-1`. -/
theorem iavStep_neg_one (a b : Option Rat) :
    iavStep ⟨a, b, some (-1)⟩ = -1 := rfl

/-- When every sample stays strictly above the threshold, the `'exact'`
scan finds no crossing. -/
theorem index_at_value_above_none (array : MArr) (threshold : Rat)
    (sl : QSlice)
    (hall : ∀ x ∈ array, ∃ v, x = some v ∧ threshold < v)
    (hstep : iavStep sl = 1 ∨ iavStep sl = -1) :
    index_at_value array threshold sl "exact" = .ok none := by
  have hbody : index_at_value array threshold sl "exact" =
    (if iavStep sl = 1 ∨ iavStep sl = -1 then
      if iavBegin sl array.length = iavEnd sl array.length then .ok none
      else if (iavBegin sl array.length -
          iavEnd sl array.length).natAbs < 2 then .ok none
      else if (iavTest array threshold sl).length = 0 then .ok none
      else if sl.stop = sl.start ∧ sl.start ≠ none then .ok none
      else if ((iavTest array threshold sl).filter
          Option.isSome).length = 0 then
        if ("exact" : String) = "closing" then
          iavClosing array threshold sl (iavStep sl)
        else if ("exact" : String) = "nearest" then
          .ok (some ((iavBegin sl array.length : Rat) +
            (iavStep sl : Rat) *
            (argminUnmasked (pyGetSliceQ
              (array.map (Option.map fun v => |v - threshold|)) sl) : Rat)))
        else .ok none
      else
        .ok (some ((iavBegin sl array.length : Rat) + (iavStep sl : Rat) *
          ((iavCrossN array threshold sl : Rat) +
            (match maGet array (iavBegin sl array.length +
                iavStep sl * iavCrossN array threshold sl),
              maGet array (iavBegin sl array.length +
                iavStep sl * (iavCrossN array threshold sl + 1)) with
             | some x, some y =>
               if x = y then 1/2 else (threshold - x) / (y - x)
             | _, _ => 1/2))))
    else .error "Step length not 1 in index_at_value") := rfl
  rw [hbody, if_pos hstep]
  by_cases h1 : iavBegin sl array.length = iavEnd sl array.length
  · rw [if_pos h1]
  · rw [if_neg h1]
    by_cases h2 : (iavBegin sl array.length -
        iavEnd sl array.length).natAbs < 2
    · rw [if_pos h2]
    · rw [if_neg h2]
      by_cases h3 : (iavTest array threshold sl).length = 0
      · rw [if_pos h3]
      · rw [if_neg h3]
        by_cases h4 : sl.stop = sl.start ∧ sl.start ≠ none
        · rw [if_pos h4]
        · rw [if_neg h4]
          rw [iavTest_above_empty array threshold sl hall]
          rw [if_pos (show ([] : List (Option Rat)).length = 0 from rfl)]
          rw [if_neg (by decide), if_neg (by decide)]

/-! # Claim theorems -/

/-! ## C1: the `NOT`/`OR` round-trip law -/

/-- C1 counterexample: the claimed law
`NOT(OR(A, NOT(A, b, e)), b, e) == A` fails on the code — `OR(A, NOT(A))`
covers all of `[b, e)`, so the outer complement is empty, not `A`.  Shown
at `A = [slice(2, 4)]`, `b = 0`, `e = 10`. -/
theorem slices_not_or_roundtrip_counterexample :
    slices_not [intSlice 2 4] (some 0) (some 10) =
      .ok [intSlice 0 2, intSlice 4 10] ∧
    slices_or [some [intSlice 2 4], some [intSlice 0 2, intSlice 4 10]]
      none none = .ok (some [intSlice 0 10]) ∧
    slices_not [intSlice 0 10] (some 0) (some 10) = .ok [] ∧
    ([] : List PySlice) ≠ [intSlice 2 4] := by
  refine ⟨?_, ?_, ?_, ?_⟩ <;> with_unfolding_all decide

/-- C1 amended: the round-trip complement law that does hold is the double
complement — for every list of strictly separated, nondegenerate, ascending
intervals fully inside `[b, e)`,
`slices_not(slices_not(A, begin_at=b, end_at=e), begin_at=b, end_at=e)`
returns exactly `A`. -/
theorem slices_not_not_roundtrip (b e : Nat) (rs : List (Nat × Nat))
    (hbe : b ≤ e) (hn : runsNorm b e rs = true) :
    (slices_not (rs.map natRunSlice) (some (b : Int))
        (some (e : Int))).bind
      (fun B => slices_not B (some (b : Int)) (some (e : Int))) =
      .ok (rs.map natRunSlice) := by
  rcases List.eq_nil_or_concat' rs with rfl | hne'
  · -- A = []: the complement is the full interval, whose complement is []
    simp only [List.map_nil]
    rw [show slices_not [] (some (b : Int)) (some (e : Int)) =
      .ok [⟨some (b : Int), some (e : Int), none⟩] from rfl]
    simp only [Except.bind]
    rcases Nat.eq_or_lt_of_le hbe with rfl | hlt
    · exact slices_not_self_empty b
    · have hn1 : runsNorm b e [(b, e)] = true := by
        simp [runsNorm]
        omega
      have := slices_not_norm [(b, e)] b e (by simp) hn1
      simp only [List.map_cons, List.map_nil] at this
      rw [show (natRunSlice (b, e)) = ⟨some (b : Int), some (e : Int), none⟩
        from rfl] at this
      rw [this]
      rw [clumps_false _ b e (by
        intro j hj hj'
        simp only [runsMark, List.any_cons, List.any_nil, Bool.or_false,
          Bool.not_eq_false', Bool.and_eq_true, decide_eq_true_eq]
        exact ⟨hj, hj'⟩)]
      rfl
  · have hne : rs ≠ [] := by
      obtain ⟨_, _, h⟩ := hne'
      subst h
      simp
    rw [slices_not_norm rs b e hne hn]
    simp only [Except.bind]
    set B := clumps (fun i => !(runsMark rs i)) b e with hB
    have hBaux : B = clumpsAux (fun i => !(runsMark rs i)) b none (e - b) :=
      rfl
    have hBnorm : runsNorm b e B = true := by
      have h := clumpsAux_norm (fun i => !(runsMark rs i)) (e - b) b none b
        (Nat.le_refl _)
      rw [show b + (e - b) = e by omega] at h
      rw [hBaux]
      exact h
    have hBmark : ∀ j, b ≤ j → j < e → runsMark B j = !(runsMark rs j) := by
      intro j hj hj'
      rw [hBaux]
      have := clumpsAux_mark (fun i => !(runsMark rs i)) (e - b) b none
        trivial j hj (by omega)
      exact this
    rcases List.eq_nil_or_concat' B with hBnil | hBne'
    · -- the complement is empty: A covers all of [b, e), so A = [(b, e)]
      have hfull : ∀ j, b ≤ j → j < e → runsMark rs j = true := by
        intro j hj hj'
        have h := hBmark j hj hj'
        rw [hBnil] at h
        simp only [runsMark, List.any_nil] at h
        rcases Bool.eq_false_or_eq_true (runsMark rs j) with hx | hx
        · exact hx
        · rw [runsMark] at hx
          rw [hx] at h
          simp at h
      have hrs : rs = [(b, e)] := runsNorm_full rs b e hn hne hfull
      rw [hBnil, hrs]
      rfl
    · have hBne : B ≠ [] := by
        obtain ⟨L, x, h⟩ := hBne'
        rw [h]
        simp
      rw [slices_not_norm B b e hBne hBnorm]
      congr 1
      congr 1
      have hcongr : clumps (fun i => !(runsMark B i)) b e =
          clumps (runsMark rs) b e := by
        rw [clumps, clumps]
        apply clumpsAux_congr
        intro j hj hj'
        rw [hBmark j hj (by omega)]
        exact Bool.not_not _
      rw [hcongr, clumps, clumpsAux_runsMark rs b e hn hbe]

/-- Witness for the amended C1 theorem at `A = [slice(2, 4)]` inside
`[0, 10)`. -/
theorem slices_not_not_roundtrip_witness :
    (slices_not [natRunSlice (2, 4)] (some (0 : Int))
        (some (10 : Int))).bind
      (fun B => slices_not B (some (0 : Int)) (some (10 : Int))) =
      .ok [natRunSlice (2, 4)] := by
  have h := slices_not_not_roundtrip 0 10 [(2, 4)] (by omega) (by decide)
  simpa using h

/-! ## C2: the per-run decision of `Airborne.derive` -/

/-- C2: for a candidate positive-altitude run `slice(s, t)` processed by
the `Airborne.derive` loop over one fast interval starting at
`start_point`: a run touching the data boundary creates one phase whose
touching bound is open (`None`), regardless of the run's duration; any
other run creates one phase (with both bounds concrete, shifted into data
coordinates) exactly when its duration `(t - s) / frequency` seconds
exceeds the threshold, and otherwise creates nothing.  The rest of the
loop is unaffected. -/
theorem Airborne_run_decision (alt_aal : Parameter) (threshold : Rat)
    (start_point s t : Int) (rest : List PySlice)
    (hf : ¬ alt_aal.frequency = 0) (hst : 1 ≤ t - s) :
    airborneAirLoop alt_aal threshold start_point
        (⟨some s, some t, none⟩ :: rest) =
      (airborneAirLoop alt_aal threshold start_point rest).map
        (fun restp =>
          (if s + start_point = 0 ∨
              (alt_aal.array.length : Int) ≤ t + start_point ∨
              threshold < ((t - s : Int) : Rat) / alt_aal.frequency then
            [⟨if s + start_point = 0 then none
              else some (s + start_point),
              if (alt_aal.array.length : Int) ≤ t + start_point then none
              else some (t + start_point), none⟩]
          else []) ++ restp) := by
  have hpure : ∀ (v : List PySlice)
      (k : List PySlice → Except String (List PySlice)),
      (do
        let x ← (pure v : Except String (List PySlice))
        k x) = k v := fun _ _ => rfl
  have hmap : ∀ (e : Except String (List PySlice)) (ph : List PySlice),
      (do
        let restp ← e
        Except.ok (ph ++ restp)) = e.map (fun restp => ph ++ restp) := by
    intro e ph
    rcases e with err | v
    · rfl
    · rfl
  have hbody : airborneAirLoop alt_aal threshold start_point
      (⟨some s, some t, none⟩ :: rest) =
    (do
      let phases ←
        if (if s + start_point = 0 then (none : Option Int) else some s) =
            none ∨
           (if (alt_aal.array.length : Int) ≤ t + start_point then
             (none : Option Int) else some t) = none then
          pure (shift_slice
            ⟨if s + start_point = 0 then none else some s,
             if (alt_aal.array.length : Int) ≤ t + start_point then none
             else some t, none⟩ start_point).toList
        else if alt_aal.frequency = 0 then
          throw "ZeroDivisionError: division by zero"
        else if threshold < ((t - s : Int) : Rat) / alt_aal.frequency then
          pure (shift_slice ⟨some s, some t, none⟩ start_point).toList
        else pure []
      let restp ← airborneAirLoop alt_aal threshold start_point rest
      Except.ok (phases ++ restp)) := rfl
  rw [hbody]
  by_cases hA : s + start_point = 0
  · simp only [if_pos hA]
    rw [if_pos (Or.inl trivial)]
    rw [shift_slice_bounds none
      (if (alt_aal.array.length : Int) ≤ t + start_point then none
        else some t) start_point (fun x y hx hy => by simp at hx)]
    rw [hpure, hmap]
    rw [if_pos (Or.inl hA)]
    by_cases hB : (alt_aal.array.length : Int) ≤ t + start_point
    · simp only [if_pos hB]
      rfl
    · simp only [if_neg hB]
      rfl
  · simp only [if_neg hA]
    by_cases hB : (alt_aal.array.length : Int) ≤ t + start_point
    · simp only [if_pos hB]
      rw [if_pos (Or.inr trivial)]
      rw [shift_slice_bounds (some s) none start_point
        (fun x y hx hy => by simp at hy)]
      rw [hpure, hmap]
      rw [if_pos (Or.inr (Or.inl hB))]
      rfl
    · simp only [if_neg hB]
      rw [if_neg (by simp)]
      rw [if_neg hf]
      by_cases hC : threshold < ((t - s : Int) : Rat) / alt_aal.frequency
      · rw [if_pos hC]
        rw [shift_slice_bounds (some s) (some t) start_point
          (fun x y hx hy => by
            injection hx with hx'
            injection hy with hy'
            omega)]
        rw [hpure, hmap]
        rw [if_pos (Or.inr (Or.inr hC))]
        rfl
      · rw [if_neg hC]
        rw [hpure, hmap]
        rw [if_neg (by
          intro hor
          rcases hor with h | h | h
          · exact hA h
          · exact hB h
          · exact hC h)]

/-- Witness for C2 at a run `slice(1, 3)` inside data of length 5 starting
at offset 0, with threshold 1 second at 1 Hz: the run touches neither
boundary and lasts 2 seconds, so one phase `slice(1, 3)` is created. -/
theorem Airborne_run_decision_witness :
    ¬ (Parameter.mk [some 0, some 5, some 5, some 0, some 0] 1).frequency
        = 0 ∧
    (1 : Int) ≤ (3 : Int) - 1 ∧
    airborneAirLoop ⟨[some 0, some 5, some 5, some 0, some 0], 1⟩ 1 0
        [⟨some 1, some 3, none⟩] =
      (airborneAirLoop ⟨[some 0, some 5, some 5, some 0, some 0], 1⟩ 1 0
          []).map
        (fun restp =>
          (if (1 : Int) + 0 = 0 ∨
              (((([some 0, some 5, some 5, some 0, some 0] : MArr)).length :
                Int) ≤ 3 + 0) ∨
              (1 : Rat) < (((3 : Int) - 1 : Int) : Rat) / 1 then
            [⟨if (1 : Int) + 0 = 0 then none else some (1 + 0),
              if ((([some 0, some 5, some 5, some 0, some 0] :
                MArr).length : Int) ≤ 3 + 0) then none
              else some (3 + 0), none⟩]
          else []) ++ restp) :=
  ⟨by decide, by decide,
    Airborne_run_decision ⟨[some 0, some 5, some 5, some 0, some 0], 1⟩ 1
      0 1 3 [] (by decide) (by decide)⟩

/-! ## C3: `scan_ils` on a deviation that never comes within 2.5 dots -/

/-- C3 counterexample: on a one-sample window whose deviation stays above
2.5 dots, `scan_ils` raises `ZeroDivisionError` (the single-sample valid
window is `slice(ss, ss)`, so the 40%-valid check divides by a zero
length) instead of returning `None`. -/
theorem scan_ils_above_crash_counterexample :
    scan_ils "localizer" [some 3] [] (intSlice 0 1) (1/10) 10 =
      .error "ZeroDivisionError: float division" ∧
    (5/2 : Rat) < |(3 : Rat)| ∧
    (.error "ZeroDivisionError: float division" :
      Except String (Option QSlice)) ≠ .ok none := by
  refine ⟨?_, ?_, ?_⟩ <;> with_unfolding_all decide

set_option maxHeartbeats 4000000 in
/-- C3 amended: on every fully valid deviation series whose absolute value
stays strictly above 2.5 dots, with the scan window inside the data and
not of the degenerate single-sample shape that crashes (one sample with a
duration requirement of at most one sample), `scan_ils` returns `None` for
both beam types: the backwards 2.5-dot scan finds no crossing, so the beam
is never established. -/
theorem scan_ils_stays_above_returns_none (beam : String)
    (ils_dots height : MArr) (ss se : Nat) (frequency duration : Rat)
    (hbeam : beam = "localizer" ∨ beam = "glideslope")
    (hall : ∀ x ∈ ils_dots, ∃ v, x = some v ∧ (5/2 : Rat) < |v|)
    (hss : ss ≤ se) (hse : se ≤ ils_dots.length)
    (hne1 : se - ss = 1 → (1 : Rat) < duration * frequency) :
    scan_ils beam ils_dots height (intSlice (ss : Int) (se : Int))
      frequency duration = .ok none := by
  have hget : ∀ k, k < ils_dots.length →
      ∃ v, ils_dots.getD k none = some v ∧ (5/2 : Rat) < |v| :=
    fun k hk => hall _ (getD_mem_of_lt ils_dots k hk)
  simp only [scan_ils, intSlice]
  rw [if_neg (by
    intro hc
    rcases hbeam with h | h <;> exact hc (by simp [h]))]
  rw [pyGetSlice_forward ils_dots ss se hss hse]
  by_cases hα : ((maCount ((List.range (se - ss)).map
      (fun j : Nat => ils_dots.getD (ss + j) none)) : Rat) <
      duration * frequency)
  · rw [if_pos hα]
    rfl
  · rw [if_neg hα]
    by_cases hL0 : se - ss = 0
    · rw [show (List.range (se - ss)).map
          (fun j : Nat => ils_dots.getD (ss + j) none) = [] by
        rw [hL0]
        rfl]
      rfl
    · have hWall : ∀ x ∈ (List.range (se - ss)).map
          (fun j : Nat => ils_dots.getD (ss + j) none), x.isSome = true := by
        intro x hx
        obtain ⟨j, hj, rfl⟩ := List.mem_map.mp hx
        rw [List.mem_range] at hj
        obtain ⟨v, hv, _⟩ := hget (ss + j) (by omega)
        rw [hv]
        rfl
      have hWlen : ((List.range (se - ss)).map
          (fun j : Nat => ils_dots.getD (ss + j) none)).length = se - ss := by
        simp
      have hWne : (List.range (se - ss)).map
          (fun j : Nat => ils_dots.getD (ss + j) none) ≠ [] := by
        intro hh
        rw [hh] at hWlen
        exact hL0 (by simpa using hWlen.symm)
      rw [maFlatnotmaskedEdges_all_valid _ hWall hWne, hWlen]
      dsimp only
      by_cases hL1 : se - ss = 1
      · exfalso
        apply hα
        rw [maCount_all_valid _ hWall, hWlen, hL1]
        simpa using hne1 hL1
      · have hL2 : 2 ≤ se - ss := by omega
        rw [show ((0 : Nat) : Int) + (ss : Int) = ((ss : Nat) : Int) by
          omega]
        rw [show ((se - ss - 1 : Nat) : Int) + (ss : Int) =
          ((ss + (se - ss - 1) : Nat) : Int) by omega]
        rw [pyGetSlice_forward ils_dots ss (ss + (se - ss - 1)) (by omega)
          (by omega)]
        rw [show ss + (se - ss - 1) - ss = se - ss - 1 by omega]
        have hVall : ∀ x ∈ (List.range (se - ss - 1)).map
            (fun j : Nat => ils_dots.getD (ss + j) none),
            x.isSome = true := by
          intro x hx
          obtain ⟨j, hj, rfl⟩ := List.mem_map.mp hx
          rw [List.mem_range] at hj
          obtain ⟨v, hv, _⟩ := hget (ss + j) (by omega)
          rw [hv]
          rfl
        have hVlen : ((List.range (se - ss - 1)).map
            (fun j : Nat => ils_dots.getD (ss + j) none)).length =
            se - ss - 1 := by simp
        rw [if_neg (by
          rw [hVlen]
          omega)]
        rw [if_neg (by
          rw [maCount_all_valid _ hVall, hVlen,
            div_self (by
              have : se - ss - 1 ≠ 0 := by omega
              exact_mod_cast this)]
          norm_num)]
        have hAall : ∀ x ∈ ils_dots.map (Option.map abs),
            x.isSome = true := by
          intro x hx
          obtain ⟨y, hy, rfl⟩ := List.mem_map.mp hx
          obtain ⟨v, hv, _⟩ := hall y hy
          rw [hv]
          rfl
        have hAne : ils_dots.map (Option.map abs) ≠ [] := by
          intro hh
          have h1 : (ils_dots.map (Option.map abs)).length = 0 := by
            rw [hh]
            rfl
          rw [List.length_map] at h1
          omega
        rw [repair_mask_all_valid (ils_dots.map (Option.map abs))
          frequency (some 5) false false false false none hAall hAne,
          exceptBind_ok]
        rw [pyGetSlice_forward (ils_dots.map (Option.map abs)) ss se hss
          (by rw [List.length_map]; exact hse)]
        have hWAall : ∀ x ∈ (List.range (se - ss)).map
            (fun j : Nat => (ils_dots.map (Option.map abs)).getD (ss + j)
              none), x.isSome = true := by
          intro x hx
          obtain ⟨j, hj, rfl⟩ := List.mem_map.mp hx
          rw [List.mem_range] at hj
          rw [getD_map_opt abs ils_dots (ss + j)]
          obtain ⟨v, hv, _⟩ := hget (ss + j) (by omega)
          rw [hv]
          rfl
        have hWAlen : ((List.range (se - ss)).map
            (fun j : Nat => (ils_dots.map (Option.map abs)).getD (ss + j)
              none)).length = se - ss := by simp
        have hWAne : (List.range (se - ss)).map
            (fun j : Nat => (ils_dots.map (Option.map abs)).getD (ss + j)
              none) ≠ [] := by
          intro hh
          rw [hh] at hWAlen
          exact hL0 (by simpa using hWAlen.symm)
        rw [last_valid_sample_all_valid _ hWAall hWAne, hWAlen]
        rw [getD_map_range_opt _ (se - ss) (se - ss - 1) (by omega)]
        rw [getD_map_opt abs ils_dots (ss + (se - ss - 1))]
        obtain ⟨v, hv, hvabs⟩ := hget (ss + (se - ss - 1)) (by omega)
        rw [hv]
        have hallA : ∀ x ∈ ils_dots.map (Option.map abs),
            ∃ w, x = some w ∧ (5/2 : Rat) < w := by
          intro x hx
          obtain ⟨y, hy, rfl⟩ := List.mem_map.mp hx
          obtain ⟨u, hu, hua⟩ := hall y hy
          exact ⟨|u|, by rw [hu]; rfl, hua⟩
        rw [show (Option.map abs (some v)) = some |v| from rfl]
        rw [show (match (some |v| : Option Rat) with
            | none => true
            | some x => decide (x < 5/2)) = decide (|v| < 5/2) from rfl]
        rw [decide_eq_false (not_lt.mpr (le_of_lt hvabs))]
        rw [if_neg (by simp)]
        rw [index_at_value_above_none (ils_dots.map (Option.map abs))
          (5/2) _ hallA (Or.inr (iavStep_neg_one _ _)), exceptBind_ok]
        rfl


/-- Witness for the amended C3 theorem: a two-sample series at 3 dots
scanned over `slice(0, 2)` at 1 Hz with a 1-second duration returns
`None`. -/
theorem scan_ils_stays_above_returns_none_witness :
    scan_ils "localizer" [some 3, some 3] []
      (intSlice ((0 : Nat) : Int) ((2 : Nat) : Int)) 1 1 = .ok none :=
  scan_ils_stays_above_returns_none "localizer" [some 3, some 3] [] 0 2 1 1
    (Or.inl rfl)
    (by
      intro x hx
      have hx3 : x = some 3 := by
        rcases List.mem_cons.mp hx with h | h
        · exact h
        · rcases List.mem_cons.mp h with h2 | h2
          · exact h2
          · exact absurd h2 (by simp)
      exact ⟨3, hx3, by norm_num⟩)
    (by omega) (by decide)
    (by
      intro h
      exact absurd h (by decide))

/-! ## C4: idempotence of the gap-merge / small-slice composition -/

/-- C4 counterexample: the composition
`slices_remove_small_slices(slices_remove_small_gaps(L))` is not
idempotent for every slice list.  On the unsorted list
`[slice(0,28), slice(50,60), slice(20,25), slice(30,40)]` with
`time_limit = 5`, `hz = 1`, no `count`: the merge of the unsorted middle
produces the backwards slice `slice(50,25)`, which the length filter then
removes, leaving `slice(0,28)` and `slice(30,40)` separated by a gap of 2
that a second pass merges. -/
theorem slices_remove_small_composition_counterexample :
    (slices_remove_small_gaps
        (some [intSlice 0 28, intSlice 50 60, intSlice 20 25,
          intSlice 30 40]) 5 1).bind
      (fun l => slices_remove_small_slices l 5 1 none) =
      .ok (some [intSlice 0 28, intSlice 30 40]) ∧
    (slices_remove_small_gaps (some [intSlice 0 28, intSlice 30 40]) 5
        1).bind
      (fun l => slices_remove_small_slices l 5 1 none) =
      .ok (some [intSlice 0 40]) ∧
    (some [intSlice 0 40] : Option (List PySlice)) ≠
      some [intSlice 0 28, intSlice 30 40] := by
  refine ⟨?_, ?_, ?_⟩ <;> with_unfolding_all decide

/-- C4 amended: on every list of concrete forward slices that is ascending
and non-overlapping — the shape slice lists of maximal runs always have —
the composition `slices_remove_small_slices ∘ slices_remove_small_gaps` is
idempotent for all parameters: applying it a second time with the same
`time_limit`, `hz` and `count` returns the first application's list. -/
theorem slices_remove_small_composition_idempotent
    (ps : List (Int × Int)) (time_limit hz : Rat) (count : Option Int)
    (hs : pairsSorted ps = true) :
    ((slices_remove_small_gaps (some (ps.map intPairSlice)) time_limit
        hz).bind
      (fun l => slices_remove_small_slices l time_limit hz count)).bind
      (fun m => (slices_remove_small_gaps m time_limit hz).bind
        (fun l => slices_remove_small_slices l time_limit hz count)) =
    (slices_remove_small_gaps (some (ps.map intPairSlice)) time_limit
        hz).bind
      (fun l => slices_remove_small_slices l time_limit hz count) := by
  have hM := pairGapsMerge_props (time_limit * hz) ps hs
  have hout := pairsFilter_chain
    (pairKeep (removeLimit time_limit hz count)) (time_limit * hz)
    (pairGapsMerge (time_limit * hz) ps) hM.1 hM.2
  rw [slices_remove_small_gaps_pairs ps time_limit hz]
  rw [show (Except.ok (some ((pairGapsMerge (time_limit * hz) ps).map
      intPairSlice)) : Except String (Option (List PySlice))).bind
      (fun l => slices_remove_small_slices l time_limit hz count) =
    slices_remove_small_slices (some ((pairGapsMerge (time_limit * hz)
      ps).map intPairSlice)) time_limit hz count from rfl]
  rw [slices_remove_small_slices_pairs]
  rw [show (Except.ok (some (((pairGapsMerge (time_limit * hz) ps).filter
      (pairKeep (removeLimit time_limit hz count))).map intPairSlice)) :
      Except String (Option (List PySlice))).bind
      (fun m => (slices_remove_small_gaps m time_limit hz).bind
        (fun l => slices_remove_small_slices l time_limit hz count)) =
    (slices_remove_small_gaps (some (((pairGapsMerge (time_limit * hz)
      ps).filter (pairKeep (removeLimit time_limit hz count))).map
      intPairSlice)) time_limit hz).bind
      (fun l => slices_remove_small_slices l time_limit hz count)
    from rfl]
  rw [slices_remove_small_gaps_pairs]
  rw [pairGapsMerge_id (time_limit * hz) _ hout.2]
  rw [show (Except.ok (some (((pairGapsMerge (time_limit * hz) ps).filter
      (pairKeep (removeLimit time_limit hz count))).map intPairSlice)) :
      Except String (Option (List PySlice))).bind
      (fun l => slices_remove_small_slices l time_limit hz count) =
    slices_remove_small_slices (some (((pairGapsMerge (time_limit * hz)
      ps).filter (pairKeep (removeLimit time_limit hz count))).map
      intPairSlice)) time_limit hz count from rfl]
  rw [slices_remove_small_slices_pairs]
  rw [filter_of_pairsLens (removeLimit time_limit hz count) _
    (pairsLens_filter (removeLimit time_limit hz count)
      (pairGapsMerge (time_limit * hz) ps))]

/-- Witness for the amended C4 theorem at
`L = [slice(0,5), slice(10,20)]`, `time_limit = 2`, `hz = 1`, no
`count`. -/
theorem slices_remove_small_composition_idempotent_witness :
    pairsSorted [((0 : Int), (5 : Int)), (10, 20)] = true ∧
    ((slices_remove_small_gaps
        (some ([((0 : Int), (5 : Int)), (10, 20)].map intPairSlice)) 2
        1).bind
      (fun l => slices_remove_small_slices l 2 1 none)).bind
      (fun m => (slices_remove_small_gaps m 2 1).bind
        (fun l => slices_remove_small_slices l 2 1 none)) =
    (slices_remove_small_gaps
        (some ([((0 : Int), (5 : Int)), (10, 20)].map intPairSlice)) 2
        1).bind
      (fun l => slices_remove_small_slices l 2 1 none) :=
  ⟨by decide,
    slices_remove_small_composition_idempotent [(0, 5), (10, 20)] 2 1 none
      (by decide)⟩

/-! ## C5: `repair_mask` is a frame-preserving repair -/

/-- C5: whenever `repair_mask` returns an array, that array has exactly
the input's length, and on an input with no masked sample at all the
returned array is the input unchanged, for every parameter
combination. -/
theorem repair_mask_frame (array : MArr) (frequency : Rat)
    (repair_duration : Option Rat) (rde copy ex zim : Bool)
    (repair_above : Option Rat) (out : MArr)
    (h : repair_mask array frequency repair_duration rde copy ex zim
      repair_above = .ok out) :
    out.length = array.length ∧
    ((∀ x ∈ array, x.isSome = true) → out = array) := by
  unfold repair_mask at h
  by_cases hc : maCount array = 0
  · rw [if_pos hc] at h
    by_cases hz : zim = true
    · rw [if_pos hz] at h
      injection h with h'
      constructor
      · rw [← h']
        simp
      · intro hall
        have hlen : array.length = 0 := by
          rw [← maCount_all_valid array hall, hc]
        have harr : array = [] := List.length_eq_zero.mp hlen
        rw [← h', harr]
        rfl
    · rw [if_neg hz] at h
      simp at h
  · rw [if_neg hc] at h
    have h2 : (clumps (fun i => (array.getD i none).isNone) 0
        array.length).foldlM
      (repairSection (repairSamples repair_duration frequency) rde ex zim
        repair_above array.length) array = .ok out := h
    have hnorm : runsNorm 0 array.length
        (clumps (fun i => (array.getD i none).isNone) 0 array.length) =
        true := by
      have hn := clumpsAux_norm (fun i => (array.getD i none).isNone)
        array.length 0 none 0 (Nat.le_refl 0)
      rw [Nat.zero_add] at hn
      rw [clumps, Nat.sub_zero]
      exact hn
    have hb : ∀ sec ∈ clumps (fun i => (array.getD i none).isNone) 0
        array.length, sec.1 ≤ sec.2 ∧ sec.2 ≤ array.length := by
      intro sec hs
      have hbb := runsNorm_bounds _ 0 _ hnorm sec hs
      exact ⟨Nat.le_of_lt hbb.2.1, hbb.2.2⟩
    constructor
    · exact repair_foldl_length (repairSamples repair_duration frequency)
        rde ex zim repair_above array.length _ array hb rfl out h2
    · intro hall
      have hclump : clumps (fun i => (array.getD i none).isNone) 0
          array.length = [] :=
        clumps_false _ 0 array.length
          (fun j _ hj' => getD_isNone_false array j hj' hall)
      rw [hclump] at h2
      have h3 : (Except.ok array : Except String MArr) = .ok out := h2
      injection h3 with h'
      exact h'.symm

/-- Witness for C5 at `[1, --, 2]` with a 10-second repair budget at 1 Hz:
the masked middle sample is interpolated to `3/2`, length 3 is kept, and
the (here inapplicable) fully-valid implication is delivered by the
theorem. -/
theorem repair_mask_frame_witness :
    ([some 1, some (3/2), some 2] : MArr).length =
      ([some 1, none, some 2] : MArr).length ∧
    ((∀ x ∈ ([some 1, none, some 2] : MArr), x.isSome = true) →
      ([some 1, some (3/2), some 2] : MArr) = [some 1, none, some 2]) :=
  repair_mask_frame [some 1, none, some 2] 1 (some 10) false false false
    false none [some 1, some (3/2), some 2]
    (by with_unfolding_all decide)

/-- C6: `index_at_value` on the array `[0,1,...,9]` with threshold `4.5`
and `slice(0, None)` under the default `'exact'` endpoint returns exactly
`4.5`: the crossing between the bracketing samples 4 and 5 is located by
linear interpolation. -/
theorem index_at_value_ramp_midpoint :
    index_at_value ((List.range 10).map fun i => some (i : Rat)) (9/2)
      ⟨some 0, none, none⟩ "exact" = .ok (some (9/2)) := by
  with_unfolding_all decide

/-! ## C7: first-order filter stability guard -/

/-- C7: `first_order_lag` and `first_order_washout` raise if and only if
the time constant scaled by the sample rate is below 0.5 samples; below the
limit no result is returned, at or above it no error is raised. -/
theorem first_order_filters_raise_iff_unstable (param : MArr)
    (time_constant hz gain : Rat) (initial_value : Option Rat) :
    ((∃ e, first_order_lag param time_constant hz gain initial_value =
        .error e) ↔ time_constant * hz < 1/2) ∧
    ((∃ e, first_order_washout param time_constant hz gain initial_value =
        .error e) ↔ time_constant * hz < 1/2) := by
  constructor <;>
    · simp only [first_order_lag, first_order_washout]
      split
      · simp_all
      · simp_all

/-! ## C8: `is_slice_within_slice` and `None` bounds -/

/-- C8 counterexample: the claim "true only if inner's start and stop are
both concrete" fails — with a fully unbounded outer slice (and even with
`outer = slice(None, 5)`) an inner slice with a `None` start is reported as
within. -/
theorem is_slice_within_slice_open_inner_counterexample :
    (⟨none, some 3, none⟩ : PySlice).start = none ∧
    is_slice_within_slice ⟨none, some 3, none⟩ ⟨none, some 5, none⟩ "slice" =
      .ok true ∧
    is_slice_within_slice ⟨none, some 3, none⟩ ⟨none, none, none⟩ "slice" =
      .ok true := by
  constructor
  · rfl
  constructor <;> decide

/-- C8 amended: in the default `'slice'` mode, whenever the inner slice has
a `None` bound on a side where the outer slice has a concrete bound, the
result is false (a `None` inner bound can only be "within" a side on which
the outer slice is itself unbounded). -/
theorem is_slice_within_slice_open_inner_never_within
    (inner outer : PySlice)
    (h : (inner.start = none ∧ outer.start ≠ none) ∨
         (inner.stop = none ∧ outer.stop ≠ none)) :
    is_slice_within_slice inner outer "slice" = .ok false := by
  obtain ⟨is, it, ik⟩ := inner
  obtain ⟨os, ot, ok⟩ := outer
  simp only [is_slice_within_slice, entire_slice_within_slice] at *
  rcases h with ⟨h1, h2⟩ | ⟨h1, h2⟩ <;>
    cases is <;> cases it <;> cases os <;> cases ot <;>
      simp_all [py2lt]

/-- Witness for the amended C8 theorem at a concrete input. -/
theorem is_slice_within_slice_open_inner_never_within_witness :
    is_slice_within_slice ⟨none, some 1, none⟩ ⟨some 0, some 5, none⟩
      "slice" = .ok false :=
  is_slice_within_slice_open_inner_never_within ⟨none, some 1, none⟩
    ⟨some 0, some 5, none⟩ (Or.inl ⟨rfl, by decide⟩)

/-! ## C10: `slices_or` on degenerate input -/

/-- C10: `slices_or` returns Python `None` — not an empty list — when
called with zero slice lists, and likewise when every supplied list is
empty (and no `end_at` keyword is given), since no endpoint bound is ever
established. -/
theorem slices_or_degenerate_returns_none :
    (∀ b e, slices_or [] b e = .ok none) ∧
    (∀ (ls : List (Option (List PySlice))) (b : Option Int),
      (∀ l ∈ ls, l = some []) → slices_or ls b none = .ok none) := by
  refine ⟨fun b e => rfl, fun ls b h => ?_⟩
  rcases ls with _ | ⟨l0, rest⟩
  · rfl
  · have hfold : ∀ (ls' : List (Option (List PySlice))) (acc : OrAcc),
        (∀ l ∈ ls', l = some []) →
        ls'.foldlM
          (fun (acc : OrAcc) ol =>
            match ol with
            | none =>
              Except.error "slices_or called with slice list of None"
            | some l => Except.ok (orScanList acc l)) acc =
          Except.ok acc := by
      intro ls'
      induction ls' with
      | nil => intro acc _; rfl
      | cons x xs ih =>
        intro acc hx
        have hx0 : x = some [] := hx x (by simp)
        subst hx0
        simpa [List.foldlM, orScanList] using
          ih acc (fun l hl => hx l (by simp [hl]))
    simp only [slices_or, List.isEmpty]
    rw [hfold (l0 :: rest) _ h]
    simp [py2lt, Bind.bind, Except.bind]

/-- Witness for C10 at a concrete input with two empty lists. -/
theorem slices_or_degenerate_returns_none_witness :
    slices_or [some [], some []] none none = .ok none :=
  slices_or_degenerate_returns_none.2 [some [], some []] none
    (by intro l hl; simp only [List.mem_cons, List.not_mem_nil, or_false] at hl
        rcases hl with h | h <;> exact h)

/-! ## C9: the interpolation division in `index_at_value` is guarded -/

/-- C9: when `index_at_value` detects a sign change but the bracketing
samples are equal (or either is masked), it does not divide by their
difference: the result is the index of the first bracketing sample plus
half a sample in the scan direction, for any endpoint policy; the crossing
branch is total. -/
theorem index_at_value_guarded_interpolation
    (array : MArr) (threshold : Rat) (sl : QSlice) (endpoint : String)
    (hstep : iavStep sl = 1 ∨ iavStep sl = -1)
    (hne : iavBegin sl array.length ≠ iavEnd sl array.length)
    (hfar : 2 ≤ (iavBegin sl array.length - iavEnd sl array.length).natAbs)
    (hss : ¬(sl.stop = sl.start ∧ sl.start ≠ none))
    (hcross : ((iavTest array threshold sl).filter Option.isSome).length ≠ 0)
    (hbracket :
      maGet array (iavBegin sl array.length +
        iavStep sl * iavCrossN array threshold sl) = none ∨
      maGet array (iavBegin sl array.length +
        iavStep sl * (iavCrossN array threshold sl + 1)) = none ∨
      maGet array (iavBegin sl array.length +
        iavStep sl * iavCrossN array threshold sl) =
      maGet array (iavBegin sl array.length +
        iavStep sl * (iavCrossN array threshold sl + 1))) :
    index_at_value array threshold sl endpoint =
      .ok (some ((iavBegin sl array.length : Rat) +
        (iavStep sl : Rat) * ((iavCrossN array threshold sl : Rat) + 1/2))) := by
  have hlen : (iavTest array threshold sl).length ≠ 0 := by
    intro h0
    apply hcross
    have := List.length_filter_le Option.isSome (iavTest array threshold sl)
    omega
  simp only [index_at_value]
  rw [if_pos hstep, if_neg hne, if_neg (by omega), if_neg hlen, if_neg hss,
    if_neg hcross]
  rcases hbracket with h | h | h
  · rw [h]
  · rw [h]
    rcases hx : maGet array (iavBegin sl array.length +
      iavStep sl * iavCrossN array threshold sl) with _ | x <;> rfl
  · rcases hx : maGet array (iavBegin sl array.length +
        iavStep sl * iavCrossN array threshold sl) with _ | x
    · rfl
    · rw [hx] at h
      rw [← h]
      simp

/-- Witness for C9: on `[4, 4, 6]` with threshold 4 the first crossing pair
is `(4, 4)` — a zero product with equal brackets — and the result is the
midpoint index 0.5. -/
theorem index_at_value_guarded_interpolation_witness :
    index_at_value [some 4, some 4, some 6] 4 ⟨some 0, none, none⟩ "exact" =
      .ok (some (1/2)) := by
  have h := index_at_value_guarded_interpolation [some 4, some 4, some 6] 4
    ⟨some 0, none, none⟩ "exact"
    (by with_unfolding_all decide) (by with_unfolding_all decide)
    (by with_unfolding_all decide) (by with_unfolding_all decide)
    (by with_unfolding_all decide) (by with_unfolding_all decide)
  rw [h]
  have h1 : iavBegin ⟨some 0, none, none⟩ (3 : Nat) = 0 := by
    with_unfolding_all decide
  have h2 : iavStep ⟨some 0, none, none⟩ = 1 := by decide
  have h3 : iavCrossN [some 4, some 4, some 6] 4 ⟨some 0, none, none⟩ = 0 := by
    with_unfolding_all decide
  norm_num [h1, h2, h3]

end FDA

